import Mathlib

/-!
The systemd-operator: its action planner, applier and change detector.

A shallow embedding of `internal/operator/operator.go` (the planner
`calculateActions`, the applier `apply` with its helpers, `getSha1OfFiles` and
`Reconcile`), of the commands of `internal/systemctl/systemctl.go` that the
applier uses, of `internal/kclient/kclient.go` (the change detector:
`nodeChange` and `configMapChange`), of the subset tests of
`internal/stringset/stringset.go` and of the table scanner of
`internal/tableconv/tableconv.go`.

Go maps are finite partial functions with no iteration order.  They are
embedded as association lists: the list order is the order in which a
`range` loop visits the entries, `mapGet` is the lookup `m[k]`, `mapSet` the
assignment `m[k] = v`.  Go strings are embedded as Lean strings; the only
suffixes the code tests are ASCII, for which the byte-wise and the
character-wise suffix tests agree.
-/

namespace Operator

/-! ## Strings -/

/-- The Go function `strings.HasSuffix`. -/
def HasSuffix (s suffix : String) : Bool :=
  suffix.data.isSuffixOf s.data

/-- The Go function `strings.TrimSuffix`: `s` without the trailing `suffix`,
or `s` itself when it does not end in `suffix`. -/
def TrimSuffix (s suffix : String) : String :=
  if HasSuffix s suffix then ⟨s.data.take (s.data.length - suffix.data.length)⟩ else s

/-! ## Go maps -/

/-- A Go `map[string]V`, as the list of its entries in visiting order. -/
abbrev GoMap (V : Type) := List (String × V)

/-- The lookup `v, ok := m[k]`: `some v` when `ok`, else `none`. -/
def mapGet {V : Type} (m : GoMap V) (k : String) : Option V :=
  match m with
  | [] => none
  | (k', v) :: rest => if k' = k then some v else mapGet rest k

/-- The assignment `m[k] = v`. -/
def mapSet {V : Type} (m : GoMap V) (k : String) (v : V) : GoMap V :=
  match m with
  | [] => [(k, v)]
  | (k', v') :: rest => if k' = k then (k, v) :: rest else (k', v') :: mapSet rest k v

/-- The keys of a map, in visiting order. -/
def mapKeys {V : Type} (m : GoMap V) : List String :=
  m.map Prod.fst

/-- Membership test `_, ok := m[k]`. -/
def mapHas {V : Type} (m : GoMap V) (k : String) : Bool :=
  (mapGet m k).isSome

/-- The value read by `v, _ := m[k]` on a `map[string]string`: the zero value
`""` when the key is absent. -/
def mapVal (m : GoMap String) (k : String) : String :=
  (mapGet m k).getD ""

/-- A well-formed Go map has no key twice. -/
def WellFormed {V : Type} (m : GoMap V) : Prop :=
  (mapKeys m).Nodup

instance {V : Type} (m : GoMap V) : Decidable (WellFormed m) := by
  unfold WellFormed
  infer_instance

/-! ## The planner -/

/-- Actions to reconcile state (`type action int`). -/
inductive action where
  | nop
  | create
  | update
  | delete
  deriving DecidableEq, Repr

/-- The two plans returned by `calculateActions`: `timer` and `service`. -/
structure Plans where
  timer : GoMap action
  service : GoMap action
  deriving DecidableEq, Repr

/-- Body of the first loop of `calculateActions` ("what to create or
update?"), for the visited key `k` of `localHash`. -/
def createUpdateStep (localHash remoteHash : GoMap String) (p : Plans) (k : String) : Plans :=
  if !HasSuffix k ".service" then p
  else
    let n := TrimSuffix k ".service"
    let rtHash := mapVal remoteHash (n ++ ".timer")
    let hasRT := mapHas remoteHash (n ++ ".timer")
    let rsHash := mapVal remoteHash (n ++ ".service")
    let hasRS := mapHas remoteHash (n ++ ".service")
    let ltHash := mapVal localHash (n ++ ".timer")
    let hasLT := mapHas localHash (n ++ ".timer")
    let lsHash := mapVal localHash (n ++ ".service")
    if hasLT then
      if !(hasRT && hasRS) then { p with timer := mapSet p.timer n action.create }
      else if ltHash != rtHash || lsHash != rsHash then
        { p with timer := mapSet p.timer n action.update }
      else p
    else
      if !hasRS then { p with service := mapSet p.service n action.create }
      else if lsHash != rsHash then { p with service := mapSet p.service n action.update }
      else p

/-- Body of the second loop of `calculateActions` ("what to delete?"), for
the visited key `k` of `remoteHash`.  Both branches assign to `timer`, as in
the source. -/
def deleteStep (localHash remoteHash : GoMap String) (p : Plans) (k : String) : Plans :=
  if !HasSuffix k ".service" then p
  else
    let n := TrimSuffix k ".service"
    let hasLT := mapHas localHash (n ++ ".timer")
    let hasLS := mapHas localHash (n ++ ".service")
    if mapHas remoteHash (n ++ ".timer") then
      if !(hasLT && hasLS) then { p with timer := mapSet p.timer n action.delete }
      else p
    else
      if !hasLS then { p with timer := mapSet p.timer n action.delete }
      else p

/-- The planner, with the visiting orders of the two `range` loops given
explicitly: `localOrder` for the keys of `localHash`, `remoteOrder` for the
keys of `remoteHash`. -/
def calculateActionsIn (localOrder remoteOrder : List String)
    (localHash remoteHash : GoMap String) : Plans :=
  let afterCreate := localOrder.foldl (createUpdateStep localHash remoteHash) ⟨[], []⟩
  remoteOrder.foldl (deleteStep localHash remoteHash) afterCreate

/-- The function `calculateActions(localHash, remoteHash)`: both maps are
visited in the order of their entry lists. -/
def calculateActions (localHash remoteHash : GoMap String) : Plans :=
  calculateActionsIn (mapKeys localHash) (mapKeys remoteHash) localHash remoteHash

/-! ## The planner: what each loop writes -/

/-- Conditional assignment: `m[n] = a` when the loop body reaches an
assignment, `m` unchanged otherwise. -/
def mapSetOpt (m : GoMap action) (n : String) (a : Option action) : GoMap action :=
  match a with
  | none => m
  | some v => mapSet m n v

/-- What the first loop assigns to `timer[n]` when it visits `n.service`. -/
def timerCreateUpdate (localHash remoteHash : GoMap String) (n : String) : Option action :=
  if mapHas localHash (n ++ ".timer") then
    if !(mapHas remoteHash (n ++ ".timer") && mapHas remoteHash (n ++ ".service")) then
      some action.create
    else if mapVal localHash (n ++ ".timer") != mapVal remoteHash (n ++ ".timer")
        || mapVal localHash (n ++ ".service") != mapVal remoteHash (n ++ ".service") then
      some action.update
    else none
  else none

/-- What the first loop assigns to `service[n]` when it visits `n.service`. -/
def serviceCreateUpdate (localHash remoteHash : GoMap String) (n : String) : Option action :=
  if mapHas localHash (n ++ ".timer") then none
  else if !mapHas remoteHash (n ++ ".service") then some action.create
  else if mapVal localHash (n ++ ".service") != mapVal remoteHash (n ++ ".service") then
    some action.update
  else none

/-- What the second loop assigns to `timer[n]` when it visits `n.service`. -/
def timerDelete (localHash remoteHash : GoMap String) (n : String) : Option action :=
  if mapHas remoteHash (n ++ ".timer") then
    if !(mapHas localHash (n ++ ".timer") && mapHas localHash (n ++ ".service")) then
      some action.delete
    else none
  else if !mapHas localHash (n ++ ".service") then some action.delete
  else none

/-- A loop body that, on a key `n.service`, assigns `f n` to `m[n]`. -/
def writeStep (f : String → Option action) (m : GoMap action) (k : String) : GoMap action :=
  if HasSuffix k ".service" then mapSetOpt m (TrimSuffix k ".service") (f (TrimSuffix k ".service"))
  else m

/-! ## The applier -/

/-- The unit commands of `systemctl.UnitCmd`. -/
inductive UnitCmd where
  | Start
  | Stop
  | Reload
  | Restart
  deriving DecidableEq, Repr

/-- The unit file commands of `systemctl.UnitFileCmd`. -/
inductive UnitFileCmd where
  | Enable
  | Disable
  | Reenable
  deriving DecidableEq, Repr

/-- A call made by the applier on the remote connection: `copyFile` and
`deleteFile` of `operator.go`, and `Unit`, `UnitFile` and `DaemonReload` of the
`systemctl` wrapper. -/
inductive Call where
  | copyFile (dir name data : String)
  | deleteFile (dir name : String)
  | unit (cmd : UnitCmd) (name : String)
  | unitFile (cmd : UnitFileCmd) (name : String)
  | daemonReload
  deriving DecidableEq, Repr

/-- The calls of `createTimer`, in order. -/
def createTimer (dir name timerContent serviceContent : String) : List Call :=
  [Call.copyFile dir (name ++ ".timer") timerContent,
   Call.copyFile dir (name ++ ".service") serviceContent,
   Call.unit UnitCmd.Start (name ++ ".timer")]

/-- The calls of `updateTimer`, in order. -/
def updateTimer (dir name timerContent serviceContent : String) : List Call :=
  [Call.copyFile dir (name ++ ".timer") timerContent,
   Call.copyFile dir (name ++ ".service") serviceContent,
   Call.daemonReload]

/-- The calls of `deleteTimer`, in order. -/
def deleteTimer (dir name : String) : List Call :=
  [Call.unit UnitCmd.Stop (name ++ ".timer"),
   Call.deleteFile dir (name ++ ".timer"),
   Call.deleteFile dir (name ++ ".service")]

/-- The calls of `createService`, in order. -/
def createService (dir name serviceContent : String) : List Call :=
  [Call.copyFile dir (name ++ ".service") serviceContent,
   Call.daemonReload,
   Call.unitFile UnitFileCmd.Enable (name ++ ".service"),
   Call.unit UnitCmd.Start (name ++ ".service")]

/-- The calls of `updateService`, in order. -/
def updateService (dir name serviceContent : String) : List Call :=
  [Call.copyFile dir (name ++ ".service") serviceContent,
   Call.daemonReload]

/-- The calls of `deleteService`, in order. -/
def deleteService (dir name : String) : List Call :=
  [Call.unit UnitCmd.Stop (name ++ ".service"),
   Call.unitFile UnitFileCmd.Disable (name ++ ".service"),
   Call.deleteFile dir (name ++ ".service")]

/-- The `switch` of the first loop of `apply`, for the entry `timer[n] = a`. -/
def applyTimer (dir : String) (cm : GoMap String) (n : String) (a : action) : List Call :=
  match a with
  | action.create => createTimer dir n (mapVal cm (n ++ ".timer")) (mapVal cm (n ++ ".service"))
  | action.update => updateTimer dir n (mapVal cm (n ++ ".timer")) (mapVal cm (n ++ ".service"))
  | action.delete => deleteTimer dir n
  | action.nop => []

/-- The `switch` of the second loop of `apply`, for the entry `service[n] = a`. -/
def applyService (dir : String) (cm : GoMap String) (n : String) (a : action) : List Call :=
  match a with
  | action.create => createService dir n (mapVal cm (n ++ ".service"))
  | action.update => updateService dir n (mapVal cm (n ++ ".service"))
  | action.delete => deleteService dir n
  | action.nop => []

/-- The method `operator.apply`: the calls made for the timer plan, then the
calls made for the service plan, each plan visited in the order of its entry
list (`dir` is `op.systemDir`). -/
def apply (dir : String) (cm : GoMap String) (timer service : GoMap action) : List Call :=
  timer.flatMap (fun e => applyTimer dir cm e.1 e.2)
    ++ service.flatMap (fun e => applyService dir cm e.1 e.2)

/-! ## Fingerprints and the remote unit directory -/

/-- The function `getSha1OfMap`, with the hash (hex-encoded SHA-1) as the
parameter `sha1`. -/
def getSha1OfMap (sha1 : String → String) (content : GoMap String) : GoMap String :=
  content.foldl (fun result e => mapSet result e.1 (sha1 e.2)) []

/-- The delete `delete(m, k)` of a key from a map. -/
def mapDelete {V : Type} (m : GoMap V) (k : String) : GoMap V :=
  m.filter (fun e => decide (e.1 ≠ k))

/-- The effect of one call that succeeds on the operator's files of the unit
directory (file name to content): a copy leaves the file with the given data, a
delete removes the file, the unit manager calls leave the files as they are. -/
def runCall (files : GoMap String) (c : Call) : GoMap String :=
  match c with
  | Call.copyFile _ name data => mapSet files name data
  | Call.deleteFile _ name => mapDelete files name
  | Call.unit _ _ => files
  | Call.unitFile _ _ => files
  | Call.daemonReload => files

/-- The files of the unit directory after a batch of calls in which every
call succeeds. -/
def runCalls (files : GoMap String) (calls : List Call) : GoMap String :=
  calls.foldl runCall files

/-- The observed table `remoteHash` of `Reconcile`, for the files of the unit
directory that match the operator's pattern: the remote `sha1sum` lists each of
them with the hash of its content, and `getSha1OfFiles` enters each listed name
with its hash. -/
def remoteHash (sha1 : String → String) (files : GoMap String) : GoMap String :=
  files.foldl (fun result e => mapSet result e.1 (sha1 e.2)) []

/-- The plans computed by `Reconcile` for the desired contents `cm` (names
already prefixed) and the remote files. -/
def reconcilePlans (sha1 : String → String) (cm files : GoMap String) : Plans :=
  calculateActions (getSha1OfMap sha1 cm) (remoteHash sha1 files)

/-- The remote files after a `Reconcile` in which every call succeeds. -/
def reconcileFiles (sha1 : String → String) (dir : String) (cm files : GoMap String) :
    GoMap String :=
  runCalls files (apply dir cm (reconcilePlans sha1 cm files).timer
    (reconcilePlans sha1 cm files).service)

/-- What the calls made for an entry `timer[n] = a` or `service[n] = a` leave in
the file `n.service`, which held `old`. -/
def timerEffectService (cm : GoMap String) (n : String) (a : action)
    (old : Option String) : Option String :=
  match a with
  | action.create => some (mapVal cm (n ++ ".service"))
  | action.update => some (mapVal cm (n ++ ".service"))
  | action.delete => none
  | action.nop => old

/-- What the calls made for an entry `timer[n] = a` leave in the file `n.timer`,
which held `old`. -/
def timerEffectTimer (cm : GoMap String) (n : String) (a : action)
    (old : Option String) : Option String :=
  match a with
  | action.create => some (mapVal cm (n ++ ".timer"))
  | action.update => some (mapVal cm (n ++ ".timer"))
  | action.delete => none
  | action.nop => old

/-! ## The change detector (`internal/kclient`) -/

/-- The operation codes of `instruction.go`. -/
inductive OpCode where
  | Add
  | Update
  | Delete
  | Idle
  deriving DecidableEq, Repr

/-- The struct `Node` of `node.go`; times are numbers, and a nil `Units` map is
the empty map. -/
structure Node where
  Address : String
  Ready : Bool
  LastSeen : Nat
  Units : GoMap String
  LastReconcile : Nat
  LastReconcileSuccess : Bool
  deriving DecidableEq, Repr

/-- The struct `Instruction`. Its field `DesiredState` is a pointer to a node
record of the host table; the table holds one record per address and never
replaces or removes it, so the pointer is given by the address. -/
structure Instruction where
  OpCode : OpCode
  DesiredState : String
  deriving DecidableEq, Repr

/-- One condition of a host resource (`corev1.NodeCondition`): its fields `Type` and
`Status`. -/
structure NodeCondition where
  CondType : String
  Status : String
  deriving DecidableEq, Repr

/-- The part of a host resource (`corev1.Node`) that `nodeChange` reads: the
reported addresses and conditions of its status. -/
structure ApiNode where
  Addresses : List String
  Conditions : List NodeCondition
  deriving DecidableEq, Repr

/-- The state of the change detector: the host table `nodes`, the process-wide
bundle `units`, and the instructions handed to `changes.enqueue` so far, in
enqueue order. -/
structure Kclient where
  nodes : GoMap Node
  units : GoMap String
  changes : List Instruction
  deriving DecidableEq, Repr

/-- The loop of `nodeChange` over the conditions: the first condition of type
`Ready` (`corev1.NodeReady`) decides, by its status being `True`
(`corev1.ConditionTrue`); without one, `ready` keeps its zero value. -/
def conditionsReady (conditions : List NodeCondition) : Bool :=
  match conditions with
  | [] => false
  | c :: rest => if c.CondType = "Ready" then decide (c.Status = "True") else conditionsReady rest

/-- The value of the variable `ready` of `nodeChange` after its `switch`. -/
def eventReady (op : OpCode) (apiNode : ApiNode) : Bool :=
  match op with
  | OpCode.Add => conditionsReady apiNode.Conditions
  | OpCode.Update => conditionsReady apiNode.Conditions
  | OpCode.Delete => false
  | OpCode.Idle => false

/-- The method `nodeChange`. `synced` is the value returned by
`kc.configMapStoreSynced()` and `now` the value of `time.Now()`; the result is
`none` when the run-time faults on `apiNode.Status.Addresses[0]`. -/
def nodeChange (kc : Kclient) (synced : Bool) (now : Nat) (op : OpCode) (apiNode : ApiNode) :
    Option Kclient :=
  if synced = false then some kc
  else
    match apiNode.Addresses with
    | [] => none
    | address :: _ =>
      let n : Node := match mapGet kc.nodes address with
        | some n => n
        | none => ⟨address, false, 0, [], 0, false⟩
      let ready := eventReady op apiNode
      let n : Node := match op with
        | OpCode.Add => { n with Units := kc.units, LastSeen := now }
        | OpCode.Update => { n with Units := kc.units, LastSeen := now }
        | OpCode.Delete => { n with Units := [] }
        | OpCode.Idle => n
      if n.Ready != ready then
        some { kc with
          nodes := mapSet kc.nodes address { n with Ready := ready }
          changes := kc.changes ++ [⟨op, address⟩] }
      else
        some { kc with nodes := mapSet kc.nodes address n }

/-- A host event: the operation, the host resource, and the clock reading. -/
structure NodeEvent where
  op : OpCode
  apiNode : ApiNode
  now : Nat
  deriving DecidableEq, Repr

/-- A sequence of host events handled one after the other, all after the bundle
watch has synced. -/
def nodeChanges (kc : Kclient) (events : List NodeEvent) : Option Kclient :=
  match events with
  | [] => some kc
  | e :: rest =>
    match nodeChange kc true e.now e.op e.apiNode with
    | none => none
    | some kc' => nodeChanges kc' rest

/-- The readiness recorded for an address: that of its record in the host
table, `false` for an address not seen yet. -/
def recordedReady (kc : Kclient) (address : String) : Bool :=
  match mapGet kc.nodes address with
  | some n => n.Ready
  | none => false

/-- The instructions the readiness rule asks for, for host events of one
address: one instruction, tagged with the event's operation and pointing to the
host, for each event whose readiness differs from the readiness before it
(`prev` before the first event). -/
def readinessTransitions (address : String) (prev : Bool) (events : List NodeEvent) :
    List Instruction :=
  match events with
  | [] => []
  | e :: rest =>
    (if eventReady e.op e.apiNode ≠ prev then [⟨e.op, address⟩] else [])
      ++ readinessTransitions address (eventReady e.op e.apiNode) rest


/-! ## The change detector: bundle events -/

/-- The Go predicate `unicode.IsSpace`. -/
def isSpace (c : Char) : Bool :=
  let n := c.toNat
  (9 ≤ n && n ≤ 13) || n = 32 || n = 0x85 || n = 0xA0 || n = 0x1680 ||
    (0x2000 ≤ n && n ≤ 0x200a) || n = 0x2028 || n = 0x2029 || n = 0x202f ||
    n = 0x205f || n = 0x3000

/-- The Go function `strings.TrimSpace`: the string without its leading and
trailing white space. -/
def TrimSpace (s : String) : String :=
  ⟨((s.data.dropWhile isSpace).reverse.dropWhile isSpace).reverse⟩

/-- The part of a bundle resource (`corev1.ConfigMap`) that `configMapChange`
reads: the labels of its metadata and its data. -/
structure ApiConfigMap where
  Labels : GoMap String
  Data : GoMap String
  deriving DecidableEq, Repr

/-- The constant `configLabelKey`. -/
def configLabelKey : String := "operator"

/-- The constant `configLabelValue`. -/
def configLabelValue : String := "nto"

/-- The value of `kc.units` after the `switch` of `configMapChange`: for add and
update a new map with the trimmed data, for delete the nil map; the `switch`
has no other case. -/
def unitsAfter (units : GoMap String) (op : OpCode) (apiConfigMap : ApiConfigMap) :
    GoMap String :=
  match op with
  | OpCode.Add => apiConfigMap.Data.foldl (fun u e => mapSet u e.1 (TrimSpace e.2)) []
  | OpCode.Update => apiConfigMap.Data.foldl (fun u e => mapSet u e.1 (TrimSpace e.2)) []
  | OpCode.Delete => []
  | OpCode.Idle => units

/-- The method `configMapChange`. Its last loop visits the records of the host
table in the order of the entry list; each record gets the new bundle and an
instruction pointing to it is enqueued. -/
def configMapChange (kc : Kclient) (op : OpCode) (apiConfigMap : ApiConfigMap) : Kclient :=
  if !mapHas apiConfigMap.Labels configLabelKey
      || mapVal apiConfigMap.Labels configLabelKey != configLabelValue then kc
  else
    let units := unitsAfter kc.units op apiConfigMap
    { nodes := kc.nodes.map (fun e => (e.1, { e.2 with Units := units }))
      units := units
      changes := kc.changes ++ kc.nodes.map (fun e => (⟨op, e.1⟩ : Instruction)) }

/-- The state of a detector made by `New`: no host, an empty bundle, nothing
enqueued. -/
def Kclient.initial : Kclient :=
  ⟨[], [], []⟩

/-- A watch event, as handed to the handlers registered by `New`. -/
inductive Event where
  | configMap (op : OpCode) (apiConfigMap : ApiConfigMap)
  | node (op : OpCode) (apiNode : ApiNode) (now : Nat)
  deriving DecidableEq, Repr

/-- One event handled by its handler; `synced` is what the bundle-sync
predicate returns during the call. -/
def handleEvent (kc : Kclient) (synced : Bool) (ev : Event) : Option Kclient :=
  match ev with
  | Event.configMap op apiConfigMap => some (configMapChange kc op apiConfigMap)
  | Event.node op apiNode now => nodeChange kc synced now op apiNode

/-- A sequence of events handled one after the other, each with the value of
the bundle-sync predicate at its delivery; `none` when a handler faults. -/
def handleEvents (kc : Kclient) (events : List (Bool × Event)) : Option Kclient :=
  match events with
  | [] => some kc
  | d :: rest =>
    match handleEvent kc d.1 d.2 with
    | none => none
    | some kc' => handleEvents kc' rest

/-! ## The remote channel and the unit manager -/

/-- An operation on the remote connection (package `sshclient`): a file upload
`ScpTo(data, path, perm)` or a command `Exec(cmd, args...)`. -/
inductive RemoteOp where
  | ScpTo (data : String) (path : String) (perm : Nat)
  | Exec (cmd : String) (args : List String)
  deriving DecidableEq, Repr

/-- The pieces of `s` between the characters that satisfy `p`; `cur` is the
piece being read, last character first. -/
def splitAt (p : Char → Bool) (s : List Char) (cur : List Char) : List (List Char) :=
  match s with
  | [] => [cur.reverse]
  | c :: rest => if p c then cur.reverse :: splitAt p rest [] else splitAt p rest (c :: cur)

/-- The elements kept by `path.Clean`, first element last: `.` and empty
elements are dropped, `..` removes the element before it, is dropped at the
root and kept at the start of a relative path. -/
def cleanElements (rooted : Bool) (elems : List (List Char)) (kept : List (List Char)) :
    List (List Char) :=
  match elems with
  | [] => kept
  | e :: rest =>
    if e = [] ∨ e = ['.'] then cleanElements rooted rest kept
    else if e = ['.', '.'] then
      match kept with
      | [] => if rooted then cleanElements rooted rest [] else cleanElements rooted rest [e]
      | k :: ks =>
        if k = ['.', '.'] then cleanElements rooted rest (e :: k :: ks)
        else cleanElements rooted rest ks
    else cleanElements rooted rest (e :: kept)

/-- The Go function `path.Clean`. -/
def pathClean (p : String) : String :=
  if p = "" then "."
  else
    let rooted := p.data.head? = some '/'
    let body := ['/'].intercalate (cleanElements rooted (splitAt (fun c => c = '/') p.data []) []).reverse
    if rooted then ⟨'/' :: body⟩ else if body = [] then "." else ⟨body⟩

/-- The Go function `path.Join`, for two elements. -/
def pathJoin (dir name : String) : String :=
  if dir = "" then (if name = "" then "" else pathClean name)
  else if name = "" then pathClean dir
  else pathClean (dir ++ "/" ++ name)

/-- The Go function `path.Base`. -/
def pathBase (p : String) : String :=
  if p = "" then "."
  else
    let stripped := (p.data.reverse.dropWhile (fun c => c = '/')).reverse
    let last := (stripped.reverse.takeWhile (fun c => c ≠ '/')).reverse
    if last = [] then "/" else ⟨last⟩

/-- The Go function `strings.Fields`: the pieces of `s` between runs of white
space. -/
def Fields (s : String) : List String :=
  ((splitAt isSpace s.data []).filter (fun f => f ≠ [])).map String.mk

/-- The lines read by a `bufio.Scanner` (of any length): the pieces between
line feeds, without a final empty piece and without a trailing carriage
return. -/
def scanLines (s : String) : List String :=
  let pieces := splitAt (fun c => c = '\n') s.data []
  let pieces := if pieces.getLast? = some [] then pieces.dropLast else pieces
  pieces.map (fun l => if l.getLast? = some '\r' then String.mk l.dropLast else String.mk l)

/-- The Go function `strings.ToLower`, on ASCII letters. -/
def ToLower (s : String) : String :=
  ⟨s.data.map Char.toLower⟩

/-- Modelled from the spec: the method `String` that `stringer -type=UnitCmd`
generates (its file is not among the sources); it returns the name of the
constant, which `Unit` turns into the `start|stop|reload|restart` of the unit
manager. -/
def unitCmdString (cmd : UnitCmd) : String :=
  match cmd with
  | UnitCmd.Start => "Start"
  | UnitCmd.Stop => "Stop"
  | UnitCmd.Reload => "Reload"
  | UnitCmd.Restart => "Restart"

/-- Modelled from the spec: the method `String` that
`stringer -type=UnitFileCmd` generates (its file is not among the sources); it
returns the name of the constant, which `UnitFile` turns into the
`enable|disable|reenable` of the unit manager. -/
def unitFileCmdString (cmd : UnitFileCmd) : String :=
  match cmd with
  | UnitFileCmd.Enable => "Enable"
  | UnitFileCmd.Disable => "Disable"
  | UnitFileCmd.Reenable => "Reenable"

/-- The method `sudoSystemctl` of the unit manager. -/
def SystemCtl.sudoSystemctl (arg : List String) : List RemoteOp :=
  [RemoteOp.Exec "sudo" ("systemctl" :: arg)]

/-- The method `DaemonReload`. -/
def SystemCtl.DaemonReload : List RemoteOp :=
  SystemCtl.sudoSystemctl ["daemon-reload"]

/-- The method `Unit`. -/
def SystemCtl.Unit (cmd : UnitCmd) (name : String) : List RemoteOp :=
  SystemCtl.sudoSystemctl [ToLower (unitCmdString cmd), name]

/-- The method `UnitFile`. -/
def SystemCtl.UnitFile (cmd : UnitFileCmd) (name : String) : List RemoteOp :=
  SystemCtl.sudoSystemctl [ToLower (unitFileCmdString cmd), name]

/-- The function `copyFile`: the operations it issues, in order. -/
def copyFile (dir name data : String) : List RemoteOp :=
  let fn := "/var/tmp/" ++ name
  [RemoteOp.ScpTo data fn 0o644,
   RemoteOp.Exec "sudo" ["chown", "root:root", fn],
   RemoteOp.Exec "sudo" ["mv", fn, dir]]

/-- The function `deleteFile`: the operation it issues. -/
def deleteFile (dir name : String) : List RemoteOp :=
  [RemoteOp.Exec "sudo" ["rm", pathJoin dir name]]

/-- The remote operations issued by one call of the applier. -/
def callOps (c : Call) : List RemoteOp :=
  match c with
  | Call.copyFile dir name data => copyFile dir name data
  | Call.deleteFile dir name => deleteFile dir name
  | Call.unit cmd name => SystemCtl.Unit cmd name
  | Call.unitFile cmd name => SystemCtl.UnitFile cmd name
  | Call.daemonReload => SystemCtl.DaemonReload

/-- The remote operations issued by `apply`, in order. -/
def applyOps (dir : String) (cm : GoMap String) (timer service : GoMap action) :
    List RemoteOp :=
  (apply dir cm timer service).flatMap callOps

/-! ## Reconcile -/

/-- The function `getSha1OfFiles`, from what `cl.Exec("sha1sum", pattern)`
returns: the output `s` and the error `err` (its message, `none` for nil). The
nil map returned with a nil error is the empty table. -/
def getSha1OfFiles (s : String) (err : Option String) : Except String (GoMap String) :=
  match err with
  | some e =>
    if HasSuffix e "Process exited with status 1" then Except.ok []
    else Except.error e
  | none =>
    Except.ok ((scanLines s).foldl
      (fun result line =>
        match Fields line with
        | [hash, file] => mapSet result (pathBase file) hash
        | _ => result) [])

/-- The struct `operator`; its field `prefix` is named `pfx` here. -/
structure operator where
  sshUser : String
  sshPass : String
  sshKey : String
  pfx : String
  systemDir : String
  deriving DecidableEq, Repr

/-- The function `New` of package `operator`. -/
def New (sshUser sshPass sshKey operatorId systemDir : String) : operator :=
  ⟨sshUser, sshPass, sshKey, operatorId ++ "-", systemDir⟩

/-- What the remote side answers during one `Reconcile`: the error of each
dial function (`none` when the connection opens), the output and error of the
`sha1sum` command, and the error of the operation `o` executed as number `k` of
the apply batch (`none` when it succeeds). -/
structure Remote where
  dialWithKey : Option String
  dialWithPassword : Option String
  sha1sumOut : String
  sha1sumErr : Option String
  batchErr : Nat → RemoteOp → Option String

/-- What `Reconcile` does on the remote channel: a dial, an operation executed
on the connection, or the close of the connection. -/
inductive ChannelCall where
  | DailSSHWithKey (ip user pass key : String)
  | DailWithPassword (ip user pass : String)
  | op (o : RemoteOp)
  | Close
  deriving DecidableEq, Repr

/-- The result of one `Reconcile`: what was done on the remote channel, in
order; the plans computed, when planning was reached; and the error returned
(its message, `none` for nil). -/
structure Outcome where
  calls : List ChannelCall
  plans : Option Plans
  err : Option String
  deriving DecidableEq, Repr

/-- Modelled from the spec: the remote channel in its stop-on-first-error mode
(`cl.SkipOnErr(true)` of package `sshclient`, which is not among the sources).
The operations are executed in order, starting with number `k`; the first one
that fails is the last one executed, and its error is the error of the batch
(`cl.Err()`). -/
def runBatchFrom (batchErr : Nat → RemoteOp → Option String) (k : Nat) (ops : List RemoteOp) :
    List RemoteOp × Option String :=
  match ops with
  | [] => ([], none)
  | o :: rest =>
    match batchErr k o with
    | some e => ([o], some e)
    | none => (o :: (runBatchFrom batchErr (k + 1) rest).1,
        (runBatchFrom batchErr (k + 1) rest).2)

/-- The map `cm` of `Reconcile`: the desired contents under prefixed names. -/
def prefixedUnits (op : operator) (desiredState : GoMap String) : GoMap String :=
  desiredState.foldl (fun cm e => mapSet cm (op.pfx ++ e.1) e.2) []

/-- The dial of `Reconcile`: with the key when one is configured, else with the
password. -/
def dialCall (op : operator) (ip : String) : ChannelCall :=
  if op.sshKey ≠ "" then ChannelCall.DailSSHWithKey ip op.sshUser op.sshPass op.sshKey
  else ChannelCall.DailWithPassword ip op.sshUser op.sshPass

/-- The error of the dial that `Reconcile` makes. -/
def dialErr (op : operator) (remote : Remote) : Option String :=
  if op.sshKey ≠ "" then remote.dialWithKey else remote.dialWithPassword

/-- The hashing command of `Reconcile`. -/
def sha1sumCall (op : operator) : RemoteOp :=
  RemoteOp.Exec "sha1sum" [pathJoin op.systemDir (op.pfx ++ "*")]

/-- The method `Reconcile`, with the hash function `sha1` and the answers of
the remote side as parameters. The error of a failed dial is formatted with one
operand too few, as in the source. -/
def Reconcile (op : operator) (sha1 : String → String) (remote : Remote) (ip : String)
    (desiredState : GoMap String) : Outcome :=
  match dialErr op remote with
  | some _ =>
    ⟨[dialCall op ip], none, some ("dail " ++ op.sshUser ++ "@" ++ ip ++ ": %!v(MISSING)\n")⟩
  | none =>
    let cm := prefixedUnits op desiredState
    let localHash := getSha1OfMap sha1 cm
    match getSha1OfFiles remote.sha1sumOut remote.sha1sumErr with
    | Except.error e =>
      ⟨[dialCall op ip, ChannelCall.op (sha1sumCall op), ChannelCall.Close], none,
        some ("get sha1: " ++ e)⟩
    | Except.ok remoteHash =>
      let plans := calculateActions localHash remoteHash
      let batch := runBatchFrom remote.batchErr 0
        (applyOps op.systemDir cm plans.timer plans.service)
      ⟨[dialCall op ip, ChannelCall.op (sha1sumCall op)] ++ batch.1.map ChannelCall.op
          ++ [ChannelCall.Close],
        some plans,
        match batch.2 with
        | some e => some ("apply: " ++ e)
        | none => none⟩

/-! ## String sets (`internal/stringset`) -/

/-- The type `Set` of package `stringset`: a `map[string]struct{}`. -/
abbrev stringset.Set := GoMap Unit

/-- The method `Add`: the set with the item, and whether the item is new. -/
def stringset.Add (set : stringset.Set) (i : String) : stringset.Set × Bool :=
  (mapSet set i (), !mapHas set i)

/-- The function `New` of package `stringset`. -/
def stringset.New (a : List String) : stringset.Set :=
  a.foldl (fun s i => (stringset.Add s i).1) []

/-- The method `Contains`. -/
def stringset.Contains (set : stringset.Set) (i : String) : Bool :=
  mapHas set i

/-- The loop of `IsSubset` over the items of the receiver still to visit:
`false` at the first item that `other` does not contain. -/
def stringset.isSubsetLoop (other : stringset.Set) (elems : List String) : Bool :=
  match elems with
  | [] => true
  | elem :: rest =>
    if !stringset.Contains other elem then false else stringset.isSubsetLoop other rest

/-- The method `IsSubset`, with receiver `set`. -/
def stringset.IsSubset (set other : stringset.Set) : Bool :=
  stringset.isSubsetLoop other (mapKeys set)

/-- The method `IsSuperset`, with receiver `set`. -/
def stringset.IsSuperset (set other : stringset.Set) : Bool :=
  stringset.IsSubset other set

/-! ## The operator's namespace -/

/-- The Go function `strings.HasPrefix`. -/
def HasPrefix (s pre : String) : Bool :=
  pre.data.isPrefixOf s.data

/-- The remote file that a call of the applier uploads or removes, if any. -/
def Call.file (c : Call) : Option String :=
  match c with
  | Call.copyFile _ name _ => some name
  | Call.deleteFile _ name => some name
  | Call.unit _ _ => none
  | Call.unitFile _ _ => none
  | Call.daemonReload => none

/-! ## SHA-1 fingerprints -/

/-- The bytes of one character of a Go string: its UTF-8 encoding. -/
def utf8Char (c : Char) : List Nat :=
  let n := c.toNat
  if n < 0x80 then [n]
  else if n < 0x800 then [0xC0 + n / 64, 0x80 + n % 64]
  else if n < 0x10000 then [0xE0 + n / 4096, 0x80 + n / 64 % 64, 0x80 + n % 64]
  else [0xF0 + n / 262144, 0x80 + n / 4096 % 64, 0x80 + n / 64 % 64, 0x80 + n % 64]

/-- The bytes `[]byte(v)` of a Go string. -/
def stringBytes (s : String) : List Nat :=
  s.data.flatMap utf8Char

/-- Rotation to the left of a 32-bit word. -/
def rotl32 (x n : Nat) : Nat :=
  ((x <<< n) ||| (x >>> (32 - n))) % 4294967296

/-- The `width` bytes of `n`, most significant first. -/
def bigEndian (width n : Nat) : List Nat :=
  (List.range width).map (fun i => n / 256 ^ (width - 1 - i) % 256)

/-- The padded message of SHA-1: the message, the byte `0x80`, zero bytes up to
56 modulo 64, and the length in bits as 8 bytes. -/
def sha1Pad (msg : List Nat) : List Nat :=
  msg ++ [0x80] ++ List.replicate ((119 - msg.length % 64) % 64) 0
    ++ bigEndian 8 (msg.length * 8)

/-- The first `k` pieces of `n` elements of `l`. -/
def chunks (n : Nat) (l : List Nat) : Nat → List (List Nat)
  | 0 => []
  | k + 1 => l.take n :: chunks n (l.drop n) k

/-- The number written by bytes, most significant first. -/
def wordOf (bs : List Nat) : Nat :=
  bs.foldl (fun acc b => acc * 256 + b) 0

/-- The 80 words of the message schedule of a block of SHA-1. -/
def sha1Schedule (block : List Nat) : List Nat :=
  (List.range 64).foldl
    (fun w _ =>
      let i := w.length
      w ++ [rotl32 (w.getD (i - 3) 0 ^^^ w.getD (i - 8) 0 ^^^ w.getD (i - 14) 0 ^^^
        w.getD (i - 16) 0) 1])
    ((chunks 4 block 16).map wordOf)

/-- The five working words of SHA-1. -/
structure Sha1State where
  a : Nat
  b : Nat
  c : Nat
  d : Nat
  e : Nat
  deriving DecidableEq, Repr

/-- Round `i` of the compression function of SHA-1. -/
def sha1Round (w : List Nat) (s : Sha1State) (i : Nat) : Sha1State :=
  let f := if i < 20 then (s.b &&& s.c) ||| ((s.b ^^^ 4294967295) &&& s.d)
    else if i < 40 then s.b ^^^ s.c ^^^ s.d
    else if i < 60 then (s.b &&& s.c) ||| (s.b &&& s.d) ||| (s.c &&& s.d)
    else s.b ^^^ s.c ^^^ s.d
  let k := if i < 20 then 0x5A827999 else if i < 40 then 0x6ED9EBA1
    else if i < 60 then 0x8F1BBCDC else 0xCA62C1D6
  ⟨(rotl32 s.a 5 + f + s.e + k + w.getD i 0) % 4294967296, s.a, rotl32 s.b 30, s.c, s.d⟩

/-- The compression function of SHA-1 on one block of 64 bytes. -/
def sha1Block (h : Sha1State) (block : List Nat) : Sha1State :=
  let r := (List.range 80).foldl (sha1Round (sha1Schedule block)) h
  ⟨(h.a + r.a) % 4294967296, (h.b + r.b) % 4294967296, (h.c + r.c) % 4294967296,
    (h.d + r.d) % 4294967296, (h.e + r.e) % 4294967296⟩

/-- The digest computed by `h := sha1.New(); h.Write(msg); h.Sum(nil)` of the Go
package `crypto/sha1`: 20 bytes. -/
def sha1Sum (msg : List Nat) : List Nat :=
  let padded := sha1Pad msg
  let h := (chunks 64 padded (padded.length / 64)).foldl sha1Block
    ⟨0x67452301, 0xEFCDAB89, 0x98BADCFE, 0x10325476, 0xC3D2E1F0⟩
  [h.a, h.b, h.c, h.d, h.e].flatMap (bigEndian 4)

/-- The lower-case hexadecimal digit of a number below 16. -/
def hexDigit (n : Nat) : Char :=
  "0123456789abcdef".data.getD n '0'

/-- The Go call `fmt.Sprintf("%x", bs)` on a byte slice: two lower-case
hexadecimal digits per byte. -/
def sprintfHex (bs : List Nat) : String :=
  ⟨bs.flatMap (fun b => [hexDigit (b / 16 % 16), hexDigit (b % 16)])⟩

/-- The fingerprint that `getSha1OfMap` computes for the content `v`. -/
def sha1Hex (v : String) : String :=
  sprintfHex (sha1Sum (stringBytes v))

/-! ## Text tables (`internal/tableconv`) -/

/-- The struct `Pos`: the text of a header column and the offset `Col` at which
the column ends, `-1` for the last column. -/
structure tableconv.Pos where
  Text : String
  Col : Int
  deriving DecidableEq, Repr

/-- The struct `Table`. -/
structure tableconv.Table where
  Header : List tableconv.Pos
  Rows : List (List String)
  deriving DecidableEq, Repr

/-- The function `isWhitepace`. -/
def tableconv.isWhitepace (b : Nat) : Bool :=
  b == 32

/-- The slice expression `s[lo:hi]` on a byte slice of length `len(s)`; `none`
when the run-time faults because the bounds are out of range. -/
def tableconv.sliceFromTo (s : List Nat) (lo hi : Int) : Option (List Nat) :=
  if 0 ≤ lo ∧ lo ≤ hi ∧ hi ≤ s.length then some ((s.drop lo.toNat).take (hi - lo).toNat)
  else none

/-- The slice expression `s[lo:]`; `none` when the run-time faults because the
bound is out of range. -/
def tableconv.sliceFrom (s : List Nat) (lo : Int) : Option (List Nat) :=
  if 0 ≤ lo ∧ lo ≤ s.length then some (s.drop lo.toNat) else none

/-- The loop of `scanHeader` at index `i`, with `rest` the bytes `s[i:]` still
to visit; then the statement after the loop. The parameter `text` stands for
`strings.TrimSpace(string(...))`. -/
def tableconv.scanHeaderLoop (text : List Nat → String) (s : List Nat) (rest : List Nat)
    (i : Nat) (isSpace : Bool) (start : Nat) (answer : List tableconv.Pos) :
    Option (List tableconv.Pos) :=
  match rest with
  | [] =>
    match tableconv.sliceFrom s start with
    | none => none
    | some t => some (answer ++ [⟨text t, -1⟩])
  | b :: rest' =>
    if isSpace && !tableconv.isWhitepace b then
      match tableconv.sliceFromTo s start i with
      | none => none
      | some t =>
        tableconv.scanHeaderLoop text s rest' (i + 1) (tableconv.isWhitepace b) i
          (answer ++ [⟨text t, (i : Int) - 1⟩])
    else
      tableconv.scanHeaderLoop text s rest' (i + 1) (tableconv.isWhitepace b) start answer

/-- The function `scanHeader`; `none` when the run-time faults. -/
def tableconv.scanHeader (text : List Nat → String) (s : List Nat) :
    Option (List tableconv.Pos) :=
  tableconv.scanHeaderLoop text s s 0 false 0 []

/-- The loop of `Scan` over the header columns still to visit, for the row
line `ln`; `none` when the run-time faults. -/
def tableconv.scanRow (text : List Nat → String) (ln : List Nat) (hdr : List tableconv.Pos)
    (strt : Int) (row : List String) : Option (List String) :=
  match hdr with
  | [] => some row
  | p :: rest =>
    if p.Col + 1 ≥ ln.length then some row
    else
      match (if p.Col = -1 then tableconv.sliceFrom ln strt
        else tableconv.sliceFromTo ln strt p.Col) with
      | none => none
      | some s => tableconv.scanRow text ln rest p.Col (row ++ [text s])

/-- The loop of `Scan` over the lines after the header line; it stops at the
first empty line. -/
def tableconv.scanRows (text : List Nat → String) (hdr : List tableconv.Pos) (minCols : Int)
    (lines : List (List Nat)) (rows : List (List String)) : Option (List (List String)) :=
  match lines with
  | [] => some rows
  | ln :: rest =>
    if ln.length = 0 then some rows
    else
      match tableconv.scanRow text ln hdr 0 [] with
      | none => none
      | some row =>
        tableconv.scanRows text hdr minCols rest
          (if (row.length : Int) ≥ minCols then rows ++ [row] else rows)

/-- The function `Scan` on the lines read by the scanner, each as its bytes;
`none` when the run-time faults. -/
def tableconv.scanLinesOf (text : List Nat → String) (lines : List (List Nat)) (minCols : Int) :
    Option tableconv.Table :=
  match lines with
  | [] => some ⟨[], []⟩
  | first :: rest =>
    match tableconv.scanHeader text first with
    | none => none
    | some hdr =>
      match tableconv.scanRows text hdr minCols rest [] with
      | none => none
      | some rows => some ⟨hdr, rows⟩

/-- The function `Scan` on the text `r` of the reader. -/
def tableconv.Scan (text : List Nat → String) (r : String) (minCols : Int) :
    Option tableconv.Table :=
  tableconv.scanLinesOf text ((scanLines r).map stringBytes) minCols

/-- The conversion `strings.TrimSpace(string(s))` for bytes of ASCII text. -/
def tableconv.asciiText (s : List Nat) : String :=
  TrimSpace ⟨s.map Char.ofNat⟩

/-- A header as `scanHeader` builds it: columns with offsets that are not
negative and strictly increasing, then one last column with offset `-1`. -/
def tableconv.HeaderOk (hdr : List tableconv.Pos) : Prop :=
  ∃ init last, hdr = init ++ [last] ∧ last.Col = -1 ∧
    (∀ p ∈ init, 0 ≤ p.Col) ∧ init.Pairwise (fun p q => p.Col < q.Col)

/-! ## Strings: lemmas -/

theorem hasSuffix_append (n suf : String) : HasSuffix (n ++ suf) suf = true := by
  simp [HasSuffix]

theorem trimSuffix_append (n suf : String) : TrimSuffix (n ++ suf) suf = n := by
  simp [TrimSuffix, hasSuffix_append]

theorem hasSuffix_iff (k suf : String) :
    HasSuffix k suf = true ↔ ∃ n : String, k = n ++ suf := by
  constructor
  · intro h
    simp only [HasSuffix, List.isSuffixOf_iff_suffix] at h
    obtain ⟨t, ht⟩ := h
    exact ⟨⟨t⟩, String.ext (by simp [ht])⟩
  · rintro ⟨n, rfl⟩
    exact hasSuffix_append n suf

theorem append_right_cancel {n m suf : String} (h : n ++ suf = m ++ suf) : n = m := by
  have hd := congrArg String.data h
  simp at hd
  exact String.ext hd

theorem trimSuffix_eq_iff {k suf : String} (h : HasSuffix k suf = true) (n : String) :
    TrimSuffix k suf = n ↔ k = n ++ suf := by
  obtain ⟨m, rfl⟩ := (hasSuffix_iff k suf).1 h
  rw [trimSuffix_append]
  exact ⟨fun e => by rw [e], append_right_cancel⟩

theorem timer_ne_service (n m : String) : n ++ ".timer" ≠ m ++ ".service" := by
  intro h
  have hd := congrArg (fun s => s.data.reverse.head?) h
  simp at hd

/-! ## Go maps: lemmas -/

theorem mapGet_mapSet {V : Type} (m : GoMap V) (k k' : String) (v : V) :
    mapGet (mapSet m k v) k' = if k = k' then some v else mapGet m k' := by
  induction m with
  | nil => simp [mapSet, mapGet]
  | cons e rest ih =>
    obtain ⟨a, b⟩ := e
    by_cases hak : a = k
    · subst hak
      by_cases hk : a = k' <;> simp [mapSet, mapGet, hk]
    · by_cases hk : k = k'
      · subst hk
        simp [mapSet, mapGet, hak, ih]
      · by_cases hak' : a = k'
        · subst hak'
          simp [mapSet, mapGet, hak, hk]
        · simp [mapSet, mapGet, hak, hak', hk, ih]

theorem mapHas_iff_mem_keys {V : Type} (m : GoMap V) (k : String) :
    mapHas m k = true ↔ k ∈ mapKeys m := by
  induction m with
  | nil => simp [mapHas, mapGet, mapKeys]
  | cons e rest ih =>
    obtain ⟨a, b⟩ := e
    by_cases hak : a = k
    · simp [mapHas, mapGet, mapKeys, hak]
    · have hka : ¬ k = a := fun h => hak h.symm
      simpa [mapHas, mapGet, mapKeys, hak, hka] using ih

/-! ## The planner: what each loop writes: lemmas -/

theorem createUpdateStep_eq (d o : GoMap String) (p : Plans) (k : String) :
    createUpdateStep d o p k =
      ⟨writeStep (timerCreateUpdate d o) p.timer k,
       writeStep (serviceCreateUpdate d o) p.service k⟩ := by
  unfold createUpdateStep writeStep timerCreateUpdate serviceCreateUpdate
  by_cases hs : HasSuffix k ".service" = true
  · simp only [hs]
    split_ifs <;> simp_all [mapSetOpt]
  · simp [hs]

theorem deleteStep_eq (d o : GoMap String) (p : Plans) (k : String) :
    deleteStep d o p k = ⟨writeStep (timerDelete d o) p.timer k, p.service⟩ := by
  unfold deleteStep writeStep timerDelete
  by_cases hs : HasSuffix k ".service" = true
  · simp only [hs]
    split_ifs <;> simp_all [mapSetOpt]
  · simp [hs]

theorem foldl_createUpdateStep (d o : GoMap String) (ks : List String) (p : Plans) :
    ks.foldl (createUpdateStep d o) p =
      ⟨ks.foldl (writeStep (timerCreateUpdate d o)) p.timer,
       ks.foldl (writeStep (serviceCreateUpdate d o)) p.service⟩ := by
  induction ks generalizing p with
  | nil => rfl
  | cons k ks ih => simp only [List.foldl_cons, ih, createUpdateStep_eq]

theorem foldl_deleteStep (d o : GoMap String) (ks : List String) (p : Plans) :
    ks.foldl (deleteStep d o) p =
      ⟨ks.foldl (writeStep (timerDelete d o)) p.timer, p.service⟩ := by
  induction ks generalizing p with
  | nil => rfl
  | cons k ks ih => simp only [List.foldl_cons, ih, deleteStep_eq]

theorem mapGet_writeStep (f : String → Option action) (m : GoMap action) (k n : String) :
    mapGet (writeStep f m k) n =
      if k = n ++ ".service" ∧ (f n).isSome then f n else mapGet m n := by
  unfold writeStep
  by_cases hs : HasSuffix k ".service" = true
  · simp only [hs, if_true]
    by_cases hn : TrimSuffix k ".service" = n
    · have hk := (trimSuffix_eq_iff hs n).1 hn
      rw [hn]
      cases hf : f n <;> simp [mapSetOpt, mapGet_mapSet, hk]
    · have hk : ¬ k = n ++ ".service" := fun h => hn ((trimSuffix_eq_iff hs n).2 h)
      cases hf : f (TrimSuffix k ".service") <;> simp [mapSetOpt, mapGet_mapSet, hk, hn]
  · have hk : ¬ k = n ++ ".service" := fun h => hs (by rw [h]; exact hasSuffix_append _ _)
    simp [hs, hk]

theorem mapGet_foldl_writeStep (f : String → Option action) (ks : List String)
    (m : GoMap action) (n : String) :
    mapGet (ks.foldl (writeStep f) m) n =
      if n ++ ".service" ∈ ks ∧ (f n).isSome then f n else mapGet m n := by
  induction ks generalizing m with
  | nil => simp
  | cons k ks ih =>
    rw [List.foldl_cons, ih, mapGet_writeStep]
    by_cases h1 : n ++ ".service" ∈ ks <;> by_cases h2 : k = n ++ ".service" <;>
      by_cases h3 : (f n).isSome = true <;> simp [h1, h2, h3, eq_comm]


/-! ## The planner: the entry of each plan at a base name -/

theorem mapGet_timer_calculateActionsIn (lo ro : List String) (d o : GoMap String)
    (n : String) :
    mapGet (calculateActionsIn lo ro d o).timer n =
      if n ++ ".service" ∈ ro ∧ (timerDelete d o n).isSome then timerDelete d o n
      else if n ++ ".service" ∈ lo ∧ (timerCreateUpdate d o n).isSome then
        timerCreateUpdate d o n
      else none := by
  unfold calculateActionsIn
  simp only [foldl_deleteStep, foldl_createUpdateStep, mapGet_foldl_writeStep, mapGet]

theorem mapGet_service_calculateActionsIn (lo ro : List String) (d o : GoMap String)
    (n : String) :
    mapGet (calculateActionsIn lo ro d o).service n =
      if n ++ ".service" ∈ lo ∧ (serviceCreateUpdate d o n).isSome then
        serviceCreateUpdate d o n
      else none := by
  unfold calculateActionsIn
  simp only [foldl_deleteStep, foldl_createUpdateStep, mapGet_foldl_writeStep, mapGet]

/-- The entry `timer[n]` of the plan, in terms of lookups only. -/
theorem mapGet_timer_calculateActions (d o : GoMap String) (n : String) :
    mapGet (calculateActions d o).timer n =
      if mapHas o (n ++ ".service") = true ∧ (timerDelete d o n).isSome then timerDelete d o n
      else if mapHas d (n ++ ".service") = true ∧ (timerCreateUpdate d o n).isSome then
        timerCreateUpdate d o n
      else none := by
  unfold calculateActions
  simp only [mapGet_timer_calculateActionsIn, mapHas_iff_mem_keys]

/-- The entry `service[n]` of the plan, in terms of lookups only. -/
theorem mapGet_service_calculateActions (d o : GoMap String) (n : String) :
    mapGet (calculateActions d o).service n =
      if mapHas d (n ++ ".service") = true ∧ (serviceCreateUpdate d o n).isSome then
        serviceCreateUpdate d o n
      else none := by
  unfold calculateActions
  simp only [mapGet_service_calculateActionsIn, mapHas_iff_mem_keys]

theorem eq_nil_of_mapGet_eq_none {V : Type} (m : GoMap V) (h : ∀ k, mapGet m k = none) :
    m = [] := by
  cases m with
  | nil => rfl
  | cons e rest =>
    obtain ⟨a, b⟩ := e
    have := h a
    simp [mapGet] at this


theorem wellFormed_mapSet {V : Type} (m : GoMap V) (k : String) (v : V)
    (h : WellFormed m) : WellFormed (mapSet m k v) := by
  unfold WellFormed mapKeys at *
  induction m with
  | nil => simp [mapSet]
  | cons e rest ih =>
    obtain ⟨a, b⟩ := e
    rw [List.map_cons, List.nodup_cons] at h
    by_cases hak : a = k
    · subst hak
      simpa [mapSet] using h
    · have hmem : ∀ x, x ∈ (mapSet rest k v).map Prod.fst → x = k ∨ x ∈ rest.map Prod.fst := by
        intro x hx
        have hx' : mapHas (mapSet rest k v) x = true := (mapHas_iff_mem_keys _ _).2 hx
        by_cases hkx : k = x
        · exact Or.inl hkx.symm
        · right
          apply (mapHas_iff_mem_keys _ _).1
          simpa [mapHas, mapGet_mapSet, hkx] using hx'
      simp only [mapSet, hak, if_false, List.map_cons, List.nodup_cons]
      refine ⟨fun hx => ?_, ih h.2⟩
      rcases hmem a hx with h1 | h1
      · exact hak h1
      · exact h.1 h1

theorem wellFormed_foldl_writeStep (f : String → Option action) (ks : List String)
    (m : GoMap action) (h : WellFormed m) : WellFormed (ks.foldl (writeStep f) m) := by
  induction ks generalizing m with
  | nil => exact h
  | cons k ks ih =>
    apply ih
    unfold writeStep mapSetOpt
    split
    · split
      · exact h
      · exact wellFormed_mapSet _ _ _ h
    · exact h

/-- Both plans returned by the planner are well-formed maps. -/
theorem wellFormed_calculateActionsIn (lo ro : List String) (d o : GoMap String) :
    WellFormed (calculateActionsIn lo ro d o).timer ∧
      WellFormed (calculateActionsIn lo ro d o).service := by
  unfold calculateActionsIn
  simp only [foldl_deleteStep, foldl_createUpdateStep]
  exact ⟨wellFormed_foldl_writeStep _ _ _ (wellFormed_foldl_writeStep _ _ _ List.nodup_nil),
    wellFormed_foldl_writeStep _ _ _ List.nodup_nil⟩

theorem mem_iff_mapGet {V : Type} (m : GoMap V) (h : WellFormed m) (k : String) (v : V) :
    (k, v) ∈ m ↔ mapGet m k = some v := by
  unfold WellFormed mapKeys at h
  induction m with
  | nil => simp [mapGet]
  | cons e rest ih =>
    obtain ⟨a, b⟩ := e
    rw [List.map_cons, List.nodup_cons] at h
    by_cases hak : a = k
    · subst hak
      have hnot : ∀ w, (a, w) ∉ rest := fun w hw => h.1 (List.mem_map.2 ⟨(a, w), hw, rfl⟩)
      simp [mapGet, hnot, eq_comm]
    · have hka : ¬ k = a := fun e => hak e.symm
      simp [mapGet, hak, hka, ih h.2]

/-- Two well-formed maps with the same lookups have the same entries. -/
theorem perm_of_mapGet_eq {V : Type} (m m' : GoMap V) (h : WellFormed m) (h' : WellFormed m')
    (heq : ∀ k, mapGet m k = mapGet m' k) : m.Perm m' := by
  rw [List.perm_ext_iff_of_nodup (List.Nodup.of_map _ h) (List.Nodup.of_map _ h')]
  rintro ⟨k, v⟩
  rw [mem_iff_mapGet m h, mem_iff_mapGet m' h', heq]


theorem wellFormed_calculateActions (d o : GoMap String) :
    WellFormed (calculateActions d o).timer ∧ WellFormed (calculateActions d o).service :=
  wellFormed_calculateActionsIn _ _ d o

/-! ## The applier and the remote unit directory: lemmas -/

theorem mapGet_mapDelete {V : Type} (m : GoMap V) (k k' : String) :
    mapGet (mapDelete m k) k' = if k = k' then none else mapGet m k' := by
  induction m with
  | nil => simp [mapDelete, mapGet]
  | cons e rest ih =>
    obtain ⟨a, b⟩ := e
    unfold mapDelete at ih ⊢
    by_cases hak : a = k
    · subst hak
      by_cases hk : a = k'
      · simpa [List.filter_cons, mapGet, hk] using ih
      · simpa [List.filter_cons, mapGet, hk] using ih
    · by_cases hk : k = k'
      · subst hk
        simpa [List.filter_cons, mapGet, hak] using ih
      · by_cases hak' : a = k'
        · subst hak'
          simp [List.filter_cons, mapGet, hak, hk]
        · simpa [List.filter_cons, mapGet, hak, hak', hk] using ih

theorem wellFormed_mapDelete {V : Type} (m : GoMap V) (k : String) (h : WellFormed m) :
    WellFormed (mapDelete m k) := by
  unfold WellFormed mapKeys mapDelete at *
  exact (List.Nodup.sublist ((List.filter_sublist m).map Prod.fst) h)

theorem wellFormed_runCall (files : GoMap String) (c : Call) (h : WellFormed files) :
    WellFormed (runCall files c) := by
  cases c <;> simp only [runCall]
  · exact wellFormed_mapSet _ _ _ h
  · exact wellFormed_mapDelete _ _ h
  · exact h
  · exact h
  · exact h

theorem wellFormed_runCalls (calls : List Call) (files : GoMap String) (h : WellFormed files) :
    WellFormed (runCalls files calls) := by
  unfold runCalls
  induction calls generalizing files with
  | nil => exact h
  | cons c cs ih => exact ih _ (wellFormed_runCall files c h)

theorem runCalls_append (files : GoMap String) (cs cs' : List Call) :
    runCalls files (cs ++ cs') = runCalls (runCalls files cs) cs' := by
  unfold runCalls
  exact List.foldl_append _ _ _ _

theorem mapGet_eq_none_of_not_mem {V : Type} (m : GoMap V) (k : String)
    (h : k ∉ mapKeys m) : mapGet m k = none := by
  have hh : ¬ mapHas m k = true := fun e => h ((mapHas_iff_mem_keys m k).1 e)
  simpa [mapHas] using hh

/-- The hash table built by the loop of `getSha1OfMap` from a well-formed map
has, at every name, the hash of the content at that name. -/
theorem mapGet_foldl_hash (sha1 : String → String) (c : GoMap String) (h : WellFormed c)
    (acc : GoMap String) (k : String) :
    mapGet (c.foldl (fun result e => mapSet result e.1 (sha1 e.2)) acc) k =
      match mapGet c k with
      | some v => some (sha1 v)
      | none => mapGet acc k := by
  unfold WellFormed mapKeys at h
  induction c generalizing acc with
  | nil => simp [mapGet]
  | cons e rest ih =>
    obtain ⟨a, b⟩ := e
    rw [List.map_cons, List.nodup_cons] at h
    rw [List.foldl_cons, ih h.2]
    by_cases hak : a = k
    · subst hak
      rw [mapGet_eq_none_of_not_mem rest a h.1]
      simp [mapGet, mapGet_mapSet]
    · have hka : ¬ k = a := fun e => hak e.symm
      simp [mapGet, mapGet_mapSet, hak]

theorem mapGet_getSha1OfMap (sha1 : String → String) (c : GoMap String) (h : WellFormed c)
    (k : String) : mapGet (getSha1OfMap sha1 c) k = (mapGet c k).map sha1 := by
  unfold getSha1OfMap
  rw [mapGet_foldl_hash sha1 c h]
  cases mapGet c k <;> simp [mapGet]

theorem mapGet_remoteHash (sha1 : String → String) (c : GoMap String) (h : WellFormed c)
    (k : String) : mapGet (remoteHash sha1 c) k = (mapGet c k).map sha1 := by
  unfold remoteHash
  rw [mapGet_foldl_hash sha1 c h]
  cases mapGet c k <;> simp [mapGet]

/-- The content of the file `f` after the calls made for a well-formed plan,
when only the entry of the base name `n` can touch `f`. -/
theorem mapGet_runCalls_flatMap (g : String → action → List Call) (f n : String)
    (E : action → Option String → Option String)
    (hother : ∀ m a F, m ≠ n → mapGet (runCalls F (g m a)) f = mapGet F f)
    (hown : ∀ a F, mapGet (runCalls F (g n a)) f = E a (mapGet F f))
    (t : GoMap action) (ht : WellFormed t) (F : GoMap String) :
    mapGet (runCalls F (t.flatMap (fun e => g e.1 e.2))) f =
      match mapGet t n with
      | some a => E a (mapGet F f)
      | none => mapGet F f := by
  unfold WellFormed mapKeys at ht
  induction t generalizing F with
  | nil => simp [runCalls, mapGet]
  | cons e rest ih =>
    obtain ⟨m, a⟩ := e
    rw [List.map_cons, List.nodup_cons] at ht
    rw [List.flatMap_cons, runCalls_append, ih ht.2]
    by_cases hmn : m = n
    · subst hmn
      rw [mapGet_eq_none_of_not_mem rest m ht.1]
      simp [mapGet, hown]
    · simp [mapGet, hmn, hother m a F hmn]

theorem service_ne_timer (n m : String) : n ++ ".service" ≠ m ++ ".timer" :=
  fun h => timer_ne_service m n h.symm

theorem append_ne_of_ne {n m : String} (suf : String) (h : m ≠ n) : m ++ suf ≠ n ++ suf :=
  fun e => h (append_right_cancel e)

theorem mapGet_applyTimer_service (dir : String) (cm : GoMap String) (n : String)
    (t : GoMap action) (ht : WellFormed t) (F : GoMap String) :
    mapGet (runCalls F (t.flatMap (fun e => applyTimer dir cm e.1 e.2))) (n ++ ".service") =
      match mapGet t n with
      | some a => timerEffectService cm n a (mapGet F (n ++ ".service"))
      | none => mapGet F (n ++ ".service") := by
  apply mapGet_runCalls_flatMap (applyTimer dir cm) (n ++ ".service") n
    (timerEffectService cm n) _ _ t ht F
  · intro m a F hmn
    have h1 := append_ne_of_ne ".service" hmn
    have h2 := timer_ne_service m n
    cases a <;>
      simp [applyTimer, createTimer, updateTimer, deleteTimer, runCalls, runCall,
        mapGet_mapSet, mapGet_mapDelete, h1, h2]
  · intro a F
    have h2 := timer_ne_service n n
    cases a <;>
      simp [applyTimer, createTimer, updateTimer, deleteTimer, runCalls, runCall,
        mapGet_mapSet, mapGet_mapDelete, timerEffectService, h2]

theorem mapGet_applyTimer_timer (dir : String) (cm : GoMap String) (n : String)
    (t : GoMap action) (ht : WellFormed t) (F : GoMap String) :
    mapGet (runCalls F (t.flatMap (fun e => applyTimer dir cm e.1 e.2))) (n ++ ".timer") =
      match mapGet t n with
      | some a => timerEffectTimer cm n a (mapGet F (n ++ ".timer"))
      | none => mapGet F (n ++ ".timer") := by
  apply mapGet_runCalls_flatMap (applyTimer dir cm) (n ++ ".timer") n
    (timerEffectTimer cm n) _ _ t ht F
  · intro m a F hmn
    have h1 := append_ne_of_ne ".timer" hmn
    have h2 := service_ne_timer m n
    cases a <;>
      simp [applyTimer, createTimer, updateTimer, deleteTimer, runCalls, runCall,
        mapGet_mapSet, mapGet_mapDelete, h1, h2]
  · intro a F
    have h2 := service_ne_timer n n
    cases a <;>
      simp [applyTimer, createTimer, updateTimer, deleteTimer, runCalls, runCall,
        mapGet_mapSet, mapGet_mapDelete, timerEffectTimer, h2]

theorem mapGet_applyService_service (dir : String) (cm : GoMap String) (n : String)
    (t : GoMap action) (ht : WellFormed t) (F : GoMap String) :
    mapGet (runCalls F (t.flatMap (fun e => applyService dir cm e.1 e.2))) (n ++ ".service") =
      match mapGet t n with
      | some a => timerEffectService cm n a (mapGet F (n ++ ".service"))
      | none => mapGet F (n ++ ".service") := by
  apply mapGet_runCalls_flatMap (applyService dir cm) (n ++ ".service") n
    (timerEffectService cm n) _ _ t ht F
  · intro m a F hmn
    have h1 := append_ne_of_ne ".service" hmn
    cases a <;>
      simp [applyService, createService, updateService, deleteService, runCalls, runCall,
        mapGet_mapSet, mapGet_mapDelete, h1]
  · intro a F
    cases a <;>
      simp [applyService, createService, updateService, deleteService, runCalls, runCall,
        mapGet_mapSet, mapGet_mapDelete, timerEffectService]

theorem mapGet_applyService_timer (dir : String) (cm : GoMap String) (n : String)
    (t : GoMap action) (F : GoMap String) :
    mapGet (runCalls F (t.flatMap (fun e => applyService dir cm e.1 e.2))) (n ++ ".timer") =
      mapGet F (n ++ ".timer") := by
  induction t generalizing F with
  | nil => simp [runCalls]
  | cons e rest ih =>
    obtain ⟨m, a⟩ := e
    rw [List.flatMap_cons, runCalls_append, ih]
    have h2 := service_ne_timer m n
    cases a <;>
      simp [applyService, createService, updateService, deleteService, runCalls, runCall,
        mapGet_mapSet, mapGet_mapDelete, h2]

/-! ## The planner: claims -/

/-- Claim C1. Planning with identical desired and observed tables needs no
action: both the timer plan and the service plan are empty. -/
theorem calculateActions_same_tables_empty (h : GoMap String) :
    calculateActions h h = ⟨[], []⟩ := by
  have ht : (calculateActions h h).timer = [] := by
    apply eq_nil_of_mapGet_eq_none
    intro n
    rw [mapGet_timer_calculateActions]
    simp only [timerDelete, timerCreateUpdate]
    cases h1 : mapHas h (n ++ ".service") <;> cases h2 : mapHas h (n ++ ".timer") <;> simp
  have hs : (calculateActions h h).service = [] := by
    apply eq_nil_of_mapGet_eq_none
    intro n
    rw [mapGet_service_calculateActions]
    simp only [serviceCreateUpdate]
    cases h1 : mapHas h (n ++ ".service") <;> cases h2 : mapHas h (n ++ ".timer") <;> simp
  cases hp : calculateActions h h with
  | mk t s =>
    rw [hp] at ht hs
    simp at ht hs
    rw [ht, hs]

/-- Claim C2, counterexample. With desired `a.service` (no `a.timer`) and
observed `a.service` (another hash) and `a.timer`, the base name `a` is in both
plans: `timer[a] = delete` and `service[a] = update`. -/
theorem calculateActions_plans_overlap :
    mapGet (calculateActions [("a.service", "h1")]
        [("a.service", "h2"), ("a.timer", "h3")]).timer "a" = some action.delete ∧
    mapGet (calculateActions [("a.service", "h1")]
        [("a.service", "h2"), ("a.timer", "h3")]).service "a" = some action.update := by
  decide

/-- Claim C2, amended. A base name `n` is in both plans exactly when desired
has `n.service` but no `n.timer`, observed has both `n.service` and `n.timer`,
and the two `n.service` hashes differ; the entries are then `timer[n] = delete`
and `service[n] = update`. In every other case `n` is in at most one plan. -/
theorem calculateActions_plans_overlap_iff (d o : GoMap String) (n : String) :
    ((mapHas (calculateActions d o).timer n = true ∧
        mapHas (calculateActions d o).service n = true) ↔
      (mapHas d (n ++ ".service") = true ∧ mapHas d (n ++ ".timer") = false ∧
        mapHas o (n ++ ".service") = true ∧ mapHas o (n ++ ".timer") = true ∧
        mapVal d (n ++ ".service") ≠ mapVal o (n ++ ".service"))) ∧
    ((mapHas (calculateActions d o).timer n = true ∧
        mapHas (calculateActions d o).service n = true) →
      mapGet (calculateActions d o).timer n = some action.delete ∧
        mapGet (calculateActions d o).service n = some action.update) := by
  simp only [mapHas.eq_1 (calculateActions d o).timer, mapHas.eq_1 (calculateActions d o).service,
    mapGet_timer_calculateActions, mapGet_service_calculateActions,
    timerDelete, timerCreateUpdate, serviceCreateUpdate]
  cases h1 : mapHas d (n ++ ".service") <;> cases h2 : mapHas d (n ++ ".timer") <;>
    cases h3 : mapHas o (n ++ ".service") <;> cases h4 : mapHas o (n ++ ".timer") <;>
    by_cases h5 : mapVal d (n ++ ".service") = mapVal o (n ++ ".service") <;>
    by_cases h6 : mapVal d (n ++ ".timer") = mapVal o (n ++ ".timer") <;>
    simp [h5, h6]

/-- Claim C3. When desired has both `n.service` and `n.timer`: `timer[n]` is
create when observed lacks `n.timer` or `n.service`, update when observed has
both and one of the two hashes differs, absent when both hashes are equal; the
service plan has no entry for `n`. -/
theorem calculateActions_timer_backed (d o : GoMap String) (n : String)
    (hs : mapHas d (n ++ ".service") = true) (ht : mapHas d (n ++ ".timer") = true) :
    ((mapHas o (n ++ ".timer") = false ∨ mapHas o (n ++ ".service") = false) →
        mapGet (calculateActions d o).timer n = some action.create) ∧
    (mapHas o (n ++ ".timer") = true → mapHas o (n ++ ".service") = true →
      (mapVal d (n ++ ".timer") ≠ mapVal o (n ++ ".timer") ∨
        mapVal d (n ++ ".service") ≠ mapVal o (n ++ ".service")) →
        mapGet (calculateActions d o).timer n = some action.update) ∧
    (mapHas o (n ++ ".timer") = true → mapHas o (n ++ ".service") = true →
      mapVal d (n ++ ".timer") = mapVal o (n ++ ".timer") →
      mapVal d (n ++ ".service") = mapVal o (n ++ ".service") →
        mapGet (calculateActions d o).timer n = none) ∧
    mapGet (calculateActions d o).service n = none := by
  rw [mapGet_timer_calculateActions, mapGet_service_calculateActions]
  simp only [timerDelete, timerCreateUpdate, serviceCreateUpdate, hs, ht]
  refine ⟨?_, ?_, ?_, ?_⟩
  · rintro (h | h) <;> cases h2 : mapHas o (n ++ ".service") <;>
      cases h3 : mapHas o (n ++ ".timer") <;> simp_all
  · intro h1 h2 h3
    rcases h3 with h3 | h3 <;> simp [h1, h2, h3]
  · intro h1 h2 h3 h4
    simp [h1, h2, h3, h4]
  · simp

/-- Witness for claim C3: desired `a.service` and `a.timer`, observed empty. -/
theorem calculateActions_timer_backed_witness :
    mapHas [("a.service", "h1"), ("a.timer", "h2")] ("a" ++ ".service") = true ∧
    mapHas [("a.service", "h1"), ("a.timer", "h2")] ("a" ++ ".timer") = true ∧
    mapGet (calculateActions [("a.service", "h1"), ("a.timer", "h2")] []).timer "a"
        = some action.create ∧
    mapGet (calculateActions [("a.service", "h1"), ("a.timer", "h2")] []).service "a"
        = none :=
  have h := calculateActions_timer_backed [("a.service", "h1"), ("a.timer", "h2")] [] "a"
    (by decide) (by decide)
  ⟨by decide, by decide, h.1 (Or.inl (by decide)), h.2.2.2⟩

/-- Claim C4. When desired has `n.service` but no `n.timer`: `service[n]` is
create when observed lacks `n.service`, update when observed has it with a
different hash, absent when the hashes are equal; and when observed has no
`n.timer` either, the timer plan has no entry for `n`. -/
theorem calculateActions_service_only (d o : GoMap String) (n : String)
    (hs : mapHas d (n ++ ".service") = true) (ht : mapHas d (n ++ ".timer") = false) :
    (mapHas o (n ++ ".service") = false →
        mapGet (calculateActions d o).service n = some action.create) ∧
    (mapHas o (n ++ ".service") = true →
      mapVal d (n ++ ".service") ≠ mapVal o (n ++ ".service") →
        mapGet (calculateActions d o).service n = some action.update) ∧
    (mapHas o (n ++ ".service") = true →
      mapVal d (n ++ ".service") = mapVal o (n ++ ".service") →
        mapGet (calculateActions d o).service n = none) ∧
    (mapHas o (n ++ ".timer") = false → mapGet (calculateActions d o).timer n = none) := by
  rw [mapGet_timer_calculateActions, mapGet_service_calculateActions]
  simp only [timerDelete, timerCreateUpdate, serviceCreateUpdate, hs, ht]
  refine ⟨?_, ?_, ?_, ?_⟩
  · intro h1
    simp [h1]
  · intro h1 h2
    simp [h1, h2]
  · intro h1 h2
    simp [h1, h2]
  · intro h1
    simp [h1]

/-- Witness for claim C4: desired `a.service`, observed `a.service` with
another hash. -/
theorem calculateActions_service_only_witness :
    mapHas [("a.service", "h1")] ("a" ++ ".service") = true ∧
    mapHas [("a.service", "h1")] ("a" ++ ".timer") = false ∧
    mapGet (calculateActions [("a.service", "h1")] [("a.service", "hX")]).service "a"
        = some action.update ∧
    mapGet (calculateActions [("a.service", "h1")] [("a.service", "hX")]).timer "a"
        = none :=
  have h := calculateActions_service_only [("a.service", "h1")] [("a.service", "hX")] "a"
    (by decide) (by decide)
  ⟨by decide, by decide, h.2.1 (by decide) (by decide), h.2.2.2 (by decide)⟩

/-- Claim C5. When observed has `n.service` and desired does not, a delete is
emitted for `n`; and when observed also has `n.timer`, it is `timer[n] = delete`. -/
theorem calculateActions_delete (d o : GoMap String) (n : String)
    (ho : mapHas o (n ++ ".service") = true) (hd : mapHas d (n ++ ".service") = false) :
    (mapGet (calculateActions d o).timer n = some action.delete ∨
        mapGet (calculateActions d o).service n = some action.delete) ∧
    (mapHas o (n ++ ".timer") = true →
        mapGet (calculateActions d o).timer n = some action.delete) := by
  have key : mapGet (calculateActions d o).timer n = some action.delete := by
    rw [mapGet_timer_calculateActions]
    simp only [timerDelete, timerCreateUpdate, ho, hd]
    cases h1 : mapHas o (n ++ ".timer") <;> simp
  exact ⟨Or.inl key, fun _ => key⟩

/-- Witness for claim C5: desired empty, observed `b.service` and `b.timer`. -/
theorem calculateActions_delete_witness :
    mapHas [("b.service", "h1"), ("b.timer", "h2")] ("b" ++ ".service") = true ∧
    mapHas ([] : GoMap String) ("b" ++ ".service") = false ∧
    mapGet (calculateActions [] [("b.service", "h1"), ("b.timer", "h2")]).timer "b"
      = some action.delete :=
  ⟨by decide, by decide,
    (calculateActions_delete [] [("b.service", "h1"), ("b.timer", "h2")] "b"
      (by decide) (by decide)).2 (by decide)⟩

/-- Claim C6, the code at the failing input. With desired empty and observed
`b.service` only, the delete is put in the timer plan and the service plan is
empty: the second loop assigns `timer[n]` in its service branch too. -/
theorem calculateActions_service_delete_in_timer_plan :
    calculateActions [] [("b.service", "h1")] = ⟨[("b", action.delete)], []⟩ := by
  decide

/-- Claim C7. The plans do not depend on the order in which the keys of the two
tables are visited: for any two visiting orders of the keys of well-formed
tables, both runs give the same entry at every base name in the timer plan and
in the service plan, so the plans have the same entries; and what the first
loop assigns to `timer[n]` is never reassigned by the second loop. -/
theorem calculateActions_order_independent (d o : GoMap String)
    (lo lo' ro ro' : List String)
    (h1 : lo.Perm (mapKeys d)) (h1' : lo'.Perm (mapKeys d))
    (h2 : ro.Perm (mapKeys o)) (h2' : ro'.Perm (mapKeys o)) :
    (∀ n, mapGet (calculateActionsIn lo ro d o).timer n
        = mapGet (calculateActionsIn lo' ro' d o).timer n) ∧
    (∀ n, mapGet (calculateActionsIn lo ro d o).service n
        = mapGet (calculateActionsIn lo' ro' d o).service n) ∧
    (calculateActionsIn lo ro d o).timer.Perm (calculateActionsIn lo' ro' d o).timer ∧
    (calculateActionsIn lo ro d o).service.Perm (calculateActionsIn lo' ro' d o).service ∧
    (∀ n, n ++ ".service" ∈ lo → (timerCreateUpdate d o n).isSome = true →
        timerDelete d o n = none) := by
  have ht : ∀ n, mapGet (calculateActionsIn lo ro d o).timer n
      = mapGet (calculateActionsIn lo' ro' d o).timer n := by
    intro n
    simp only [mapGet_timer_calculateActionsIn, h1.mem_iff, h1'.mem_iff, h2.mem_iff, h2'.mem_iff]
  have hs : ∀ n, mapGet (calculateActionsIn lo ro d o).service n
      = mapGet (calculateActionsIn lo' ro' d o).service n := by
    intro n
    simp only [mapGet_service_calculateActionsIn, h1.mem_iff, h1'.mem_iff]
  refine ⟨ht, hs, ?_, ?_, ?_⟩
  · exact perm_of_mapGet_eq _ _ (wellFormed_calculateActionsIn lo ro d o).1
      (wellFormed_calculateActionsIn lo' ro' d o).1 ht
  · exact perm_of_mapGet_eq _ _ (wellFormed_calculateActionsIn lo ro d o).2
      (wellFormed_calculateActionsIn lo' ro' d o).2 hs
  · intro n hn hw
    have hls : mapHas d (n ++ ".service") = true :=
      (mapHas_iff_mem_keys d _).2 (h1.mem_iff.1 hn)
    revert hw
    simp only [timerCreateUpdate, timerDelete, hls]
    cases mapHas d (n ++ ".timer") <;> cases mapHas o (n ++ ".timer") <;> simp

/-- Witness for claim C7: the tie-break tables, visited in both orders. -/
theorem calculateActions_order_independent_witness :
    ["a.service", "b.service"].Perm (mapKeys [("a.service", "h1"), ("b.service", "h4")]) ∧
    ["b.service", "a.service"].Perm (mapKeys [("a.service", "h1"), ("b.service", "h4")]) ∧
    ["a.timer", "a.service"].Perm (mapKeys [("a.service", "h2"), ("a.timer", "h3")]) ∧
    ["a.service", "a.timer"].Perm (mapKeys [("a.service", "h2"), ("a.timer", "h3")]) ∧
    (calculateActionsIn ["a.service", "b.service"] ["a.timer", "a.service"]
        [("a.service", "h1"), ("b.service", "h4")]
        [("a.service", "h2"), ("a.timer", "h3")]).timer.Perm
      (calculateActionsIn ["b.service", "a.service"] ["a.service", "a.timer"]
        [("a.service", "h1"), ("b.service", "h4")]
        [("a.service", "h2"), ("a.timer", "h3")]).timer :=
  ⟨by decide, by decide, by decide, by decide,
    (calculateActions_order_independent
      [("a.service", "h1"), ("b.service", "h4")] [("a.service", "h2"), ("a.timer", "h3")]
      ["a.service", "b.service"] ["b.service", "a.service"]
      ["a.timer", "a.service"] ["a.service", "a.timer"]
      (by decide) (by decide) (by decide) (by decide)).2.2.1⟩

/-- Claim C9. When desired has `n.timer` but no `n.service`, the planner returns
(it is a total function) and neither plan has a create or an update entry for
`n`: the service plan has no entry for `n`, and the timer plan has none or a
delete. -/
theorem calculateActions_timer_without_service (d o : GoMap String) (n : String)
    (ht : mapHas d (n ++ ".timer") = true) (hs : mapHas d (n ++ ".service") = false) :
    mapGet (calculateActions d o).timer n ≠ some action.create ∧
    mapGet (calculateActions d o).timer n ≠ some action.update ∧
    mapGet (calculateActions d o).service n ≠ some action.create ∧
    mapGet (calculateActions d o).service n ≠ some action.update := by
  rw [mapGet_timer_calculateActions, mapGet_service_calculateActions]
  simp only [timerDelete, timerCreateUpdate, serviceCreateUpdate, hs, ht]
  cases h3 : mapHas o (n ++ ".service") <;> cases h4 : mapHas o (n ++ ".timer") <;> simp

/-- Witness for claim C9: desired `x.timer` alone, observed empty: both plans
are empty. -/
theorem calculateActions_timer_without_service_witness :
    mapHas [("x.timer", "h1")] ("x" ++ ".timer") = true ∧
    mapHas [("x.timer", "h1")] ("x" ++ ".service") = false ∧
    mapGet (calculateActions [("x.timer", "h1")] []).timer "x" ≠ some action.create ∧
    mapGet (calculateActions [("x.timer", "h1")] []).timer "x" ≠ some action.update ∧
    mapGet (calculateActions [("x.timer", "h1")] []).service "x" ≠ some action.create ∧
    mapGet (calculateActions [("x.timer", "h1")] []).service "x" ≠ some action.update :=
  ⟨by decide, by decide,
    calculateActions_timer_without_service [("x.timer", "h1")] [] "x" (by decide) (by decide)⟩


/-! ## Reconcile, then plan again -/

theorem mapGet_reconcileFiles_service (sha1 : String → String) (dir : String)
    (cm files : GoMap String) (n : String) :
    mapGet (reconcileFiles sha1 dir cm files) (n ++ ".service") =
      match mapGet (reconcilePlans sha1 cm files).service n with
      | some a => timerEffectService cm n a
          (match mapGet (reconcilePlans sha1 cm files).timer n with
            | some b => timerEffectService cm n b (mapGet files (n ++ ".service"))
            | none => mapGet files (n ++ ".service"))
      | none =>
          match mapGet (reconcilePlans sha1 cm files).timer n with
          | some b => timerEffectService cm n b (mapGet files (n ++ ".service"))
          | none => mapGet files (n ++ ".service") := by
  unfold reconcileFiles apply reconcilePlans
  rw [runCalls_append,
    mapGet_applyService_service dir cm n _ (wellFormed_calculateActions _ _).2,
    mapGet_applyTimer_service dir cm n _ (wellFormed_calculateActions _ _).1]

theorem mapGet_reconcileFiles_timer (sha1 : String → String) (dir : String)
    (cm files : GoMap String) (n : String) :
    mapGet (reconcileFiles sha1 dir cm files) (n ++ ".timer") =
      match mapGet (reconcilePlans sha1 cm files).timer n with
      | some b => timerEffectTimer cm n b (mapGet files (n ++ ".timer"))
      | none => mapGet files (n ++ ".timer") := by
  unfold reconcileFiles apply reconcilePlans
  rw [runCalls_append, mapGet_applyService_timer,
    mapGet_applyTimer_timer dir cm n _ (wellFormed_calculateActions _ _).1]

theorem wellFormed_reconcileFiles (sha1 : String → String) (dir : String)
    (cm files : GoMap String) (hf : WellFormed files) :
    WellFormed (reconcileFiles sha1 dir cm files) :=
  wellFormed_runCalls _ _ hf

/-- After a `Reconcile` in which every call succeeds, the next plan has no entry
at the base name `n` exactly when `n` is not a service-only name whose remote
timer file exists while its remote service file is absent or has the desired
hash. -/
theorem replan_entry_none_iff (sha1 : String → String) (dir : String)
    (cm files : GoMap String) (hcm : WellFormed cm) (hf : WellFormed files) (n : String) :
    (mapGet (reconcilePlans sha1 cm (reconcileFiles sha1 dir cm files)).timer n = none ∧
      mapGet (reconcilePlans sha1 cm (reconcileFiles sha1 dir cm files)).service n = none) ↔
    (mapHas cm (n ++ ".service") = true → mapHas cm (n ++ ".timer") = false →
      mapHas files (n ++ ".timer") = true →
      (mapHas files (n ++ ".service") = true ∧
        sha1 (mapVal cm (n ++ ".service")) ≠ sha1 (mapVal files (n ++ ".service")))) := by
  have hF := wellFormed_reconcileFiles sha1 dir cm files hf
  have hs := mapGet_reconcileFiles_service sha1 dir cm files n
  have ht := mapGet_reconcileFiles_timer sha1 dir cm files n
  rw [reconcilePlans.eq_1 sha1 cm (reconcileFiles sha1 dir cm files)]
  rw [reconcilePlans.eq_1 sha1 cm files] at hs ht
  simp only [mapGet_timer_calculateActions, mapGet_service_calculateActions,
    timerDelete, timerCreateUpdate, serviceCreateUpdate, mapHas, mapVal,
    timerEffectService, timerEffectTimer,
    mapGet_getSha1OfMap sha1 cm hcm, mapGet_remoteHash sha1 files hf] at hs ht
  simp only [mapGet_timer_calculateActions, mapGet_service_calculateActions,
    timerDelete, timerCreateUpdate, serviceCreateUpdate, mapHas, mapVal,
    mapGet_getSha1OfMap sha1 cm hcm, mapGet_remoteHash sha1 _ hF, hs, ht]
  clear hs ht hF
  generalize mapGet cm (n ++ ".service") = ls
  generalize mapGet cm (n ++ ".timer") = lt
  generalize mapGet files (n ++ ".service") = rs
  generalize mapGet files (n ++ ".timer") = rt
  rcases ls with _ | ls <;> rcases lt with _ | lt <;> rcases rs with _ | rs <;>
    rcases rt with _ | rt
  all_goals first
    | (by_cases h5 : sha1 ls = sha1 rs <;> by_cases h6 : sha1 lt = sha1 rt <;>
        simp [timerEffectService, timerEffectTimer, h5, h6])
    | (by_cases h5 : sha1 ls = sha1 rs <;> simp [timerEffectService, timerEffectTimer, h5])
    | simp [timerEffectService, timerEffectTimer]


/-- Claim C8, counterexample. Desired `a.service` with content `S` and no
`a.timer`; remote `a.service` with the same content `S` and `a.timer`. The plan
is `timer[a] = delete` alone, applying it removes both remote files, and the
next plan is `service[a] = create`, not empty. The hash function (here the
identity) plays no part: the two `a.service` contents are equal. -/
theorem reconcile_replan_not_empty :
    reconcilePlans (fun s => s) [("a.service", "S")] [("a.service", "S"), ("a.timer", "T")]
        = ⟨[("a", action.delete)], []⟩ ∧
    reconcileFiles (fun s => s) "/usr/lib64/systemd/system" [("a.service", "S")]
        [("a.service", "S"), ("a.timer", "T")] = [] ∧
    reconcilePlans (fun s => s) [("a.service", "S")]
        (reconcileFiles (fun s => s) "/usr/lib64/systemd/system" [("a.service", "S")]
          [("a.service", "S"), ("a.timer", "T")])
        = ⟨[], [("a", action.create)]⟩ := by
  decide

/-- Claim C8, amended. For well-formed desired contents and remote files, after
a `Reconcile` in which every call succeeds (timer plan first, then service
plan) the next plan is empty exactly when no base name `n` with a desired
`n.service`, no desired `n.timer` and a remote `n.timer` has its remote
`n.service` absent or of the desired hash. In the tie-break case with a remote
`n.service` of another hash the next plan is empty. -/
theorem reconcile_replan_empty_iff (sha1 : String → String) (dir : String)
    (cm files : GoMap String) (hcm : WellFormed cm) (hf : WellFormed files) :
    reconcilePlans sha1 cm (reconcileFiles sha1 dir cm files) = ⟨[], []⟩ ↔
      ∀ n, mapHas cm (n ++ ".service") = true → mapHas cm (n ++ ".timer") = false →
        mapHas files (n ++ ".timer") = true →
        (mapHas files (n ++ ".service") = true ∧
          sha1 (mapVal cm (n ++ ".service")) ≠ sha1 (mapVal files (n ++ ".service"))) := by
  constructor
  · intro h n
    apply (replan_entry_none_iff sha1 dir cm files hcm hf n).1
    rw [h]
    exact ⟨rfl, rfl⟩
  · intro h
    have hn := fun n => (replan_entry_none_iff sha1 dir cm files hcm hf n).2 (h n)
    have ht := eq_nil_of_mapGet_eq_none _ (fun n => (hn n).1)
    have hs := eq_nil_of_mapGet_eq_none _ (fun n => (hn n).2)
    cases hp : reconcilePlans sha1 cm (reconcileFiles sha1 dir cm files) with
    | mk t s =>
      rw [hp] at ht hs
      simp at ht hs
      rw [ht, hs]

/-- Witness for claim C8 (amended): the tie-break case with a remote
`a.service` of another content. -/
theorem reconcile_replan_empty_iff_witness :
    WellFormed [("a.service", "S")] ∧
    WellFormed [("a.service", "S2"), ("a.timer", "T")] ∧
    reconcilePlans (fun s => s) [("a.service", "S")]
        (reconcileFiles (fun s => s) "/usr/lib64/systemd/system" [("a.service", "S")]
          [("a.service", "S2"), ("a.timer", "T")]) = ⟨[], []⟩ :=
  ⟨by decide, by decide,
    (reconcile_replan_empty_iff (fun s => s) "/usr/lib64/systemd/system"
      [("a.service", "S")] [("a.service", "S2"), ("a.timer", "T")]
      (by decide) (by decide)).2 (by
        intro n h1 _ _
        have hn : n = "a" := by
          have h2 : "a" ++ ".service" = n ++ ".service" := by
            simpa [mapHas, mapGet] using h1
          exact (append_right_cancel h2).symm
        subst hn
        decide)⟩


/-! ## The change detector: host events -/

/-- One host event with a reported address, handled after the bundle watch has
synced: `nodeChange` returns, enqueues one instruction when the readiness of the
event differs from the recorded one and none otherwise, and records the
readiness of the event. -/
theorem nodeChange_synced (kc : Kclient) (now : Nat) (op : OpCode) (apiNode : ApiNode)
    (address : String) (h : apiNode.Addresses.head? = some address) :
    ∃ kc', nodeChange kc true now op apiNode = some kc' ∧
      kc'.changes = kc.changes ++
        (if eventReady op apiNode ≠ recordedReady kc address then [⟨op, address⟩] else []) ∧
      recordedReady kc' address = eventReady op apiNode := by
  obtain ⟨addrs, conds⟩ := apiNode
  cases addrs with
  | nil => simp at h
  | cons a rest =>
    simp only [List.head?_cons, Option.some.injEq] at h
    subst h
    unfold nodeChange recordedReady
    cases hn : mapGet kc.nodes a with
    | none =>
      cases op <;> cases hr : eventReady _ ⟨a :: rest, conds⟩ <;>
        simp [hn, hr, mapGet_mapSet]
    | some n =>
      cases op <;> cases hr : eventReady _ ⟨a :: rest, conds⟩ <;>
        cases hq : n.Ready <;> simp [hn, hr, hq, mapGet_mapSet]

theorem readinessTransitions_constant (address : String) (r : Bool) (events : List NodeEvent)
    (h : ∀ e ∈ events, eventReady e.op e.apiNode = r) :
    readinessTransitions address r events = [] := by
  induction events with
  | nil => rfl
  | cons e rest ih =>
    have he := h e (List.mem_cons_self _ _)
    have hrest := ih (fun e' he' => h e' (List.mem_cons_of_mem _ he'))
    simp [readinessTransitions, he, hrest]

/-- The instructions enqueued by a sequence of host events of one address. -/
theorem nodeChanges_changes (address : String) (events : List NodeEvent) (kc : Kclient)
    (h : ∀ e ∈ events, e.apiNode.Addresses.head? = some address) :
    ∃ kc', nodeChanges kc events = some kc' ∧
      kc'.changes = kc.changes ++
        readinessTransitions address (recordedReady kc address) events := by
  induction events generalizing kc with
  | nil => exact ⟨kc, rfl, by simp [readinessTransitions]⟩
  | cons e rest ih =>
    obtain ⟨kc1, h1, h2, h3⟩ :=
      nodeChange_synced kc e.now e.op e.apiNode address (h e (List.mem_cons_self _ _))
    obtain ⟨kc2, h4, h5⟩ := ih kc1 (fun e' he' => h e' (List.mem_cons_of_mem _ he'))
    refine ⟨kc2, ?_, ?_⟩
    · simp [nodeChanges, h1, h4]
    · rw [h5, h2, h3]
      simp [readinessTransitions]

/-- Claim C10. For host events of one address handled after the bundle watch has
synced: every event is handled without fault; an event enqueues an instruction
exactly when its readiness differs from the readiness recorded before it
(`false` for a new address), and then one instruction, so the instructions
enqueued are those of the readiness transitions; and when the events after the
first all have the readiness of the first, nothing is enqueued after the
first. -/
theorem nodeChange_enqueues_per_transition (kc : Kclient) (address : String)
    (events : List NodeEvent)
    (h : ∀ e ∈ events, e.apiNode.Addresses.head? = some address) :
    ∃ kc', nodeChanges kc events = some kc' ∧
      kc'.changes = kc.changes ++
        readinessTransitions address (recordedReady kc address) events ∧
      (∀ e rest, events = e :: rest →
        (∀ e' ∈ rest, eventReady e'.op e'.apiNode = eventReady e.op e.apiNode) →
        kc'.changes = kc.changes ++
          (if eventReady e.op e.apiNode ≠ recordedReady kc address then [⟨e.op, address⟩]
            else [])) := by
  obtain ⟨kc', h1, h2⟩ := nodeChanges_changes address events kc h
  refine ⟨kc', h1, h2, ?_⟩
  intro e rest he hconst
  subst he
  rw [h2]
  simp [readinessTransitions, readinessTransitions_constant address _ rest hconst]

/-- Witness for claim C10: a new host reported ready twice, then not ready, then
deleted: one instruction for the first event, one for the third. -/
theorem nodeChange_enqueues_per_transition_witness :
    (∀ e ∈ [(⟨OpCode.Add, ⟨["10.0.0.1"], [⟨"Ready", "True"⟩]⟩, 1⟩ : NodeEvent),
        ⟨OpCode.Update, ⟨["10.0.0.1"], [⟨"Ready", "True"⟩]⟩, 2⟩,
        ⟨OpCode.Update, ⟨["10.0.0.1"], [⟨"Ready", "False"⟩]⟩, 3⟩,
        ⟨OpCode.Delete, ⟨["10.0.0.1"], []⟩, 4⟩],
      e.apiNode.Addresses.head? = some "10.0.0.1") ∧
    ∃ kc', nodeChanges ⟨[], [], []⟩
        [⟨OpCode.Add, ⟨["10.0.0.1"], [⟨"Ready", "True"⟩]⟩, 1⟩,
         ⟨OpCode.Update, ⟨["10.0.0.1"], [⟨"Ready", "True"⟩]⟩, 2⟩,
         ⟨OpCode.Update, ⟨["10.0.0.1"], [⟨"Ready", "False"⟩]⟩, 3⟩,
         ⟨OpCode.Delete, ⟨["10.0.0.1"], []⟩, 4⟩] = some kc' ∧
      kc'.changes = [⟨OpCode.Add, "10.0.0.1"⟩, ⟨OpCode.Update, "10.0.0.1"⟩] := by
  have hall : ∀ e ∈ [(⟨OpCode.Add, ⟨["10.0.0.1"], [⟨"Ready", "True"⟩]⟩, 1⟩ : NodeEvent),
        ⟨OpCode.Update, ⟨["10.0.0.1"], [⟨"Ready", "True"⟩]⟩, 2⟩,
        ⟨OpCode.Update, ⟨["10.0.0.1"], [⟨"Ready", "False"⟩]⟩, 3⟩,
        ⟨OpCode.Delete, ⟨["10.0.0.1"], []⟩, 4⟩],
      e.apiNode.Addresses.head? = some "10.0.0.1" := by decide
  obtain ⟨kc', h1, h2, _⟩ := nodeChange_enqueues_per_transition ⟨[], [], []⟩ "10.0.0.1" _ hall
  exact ⟨hall, kc', h1, by rw [h2]; decide⟩

/-! ## The change detector: sync gate, bundle events, host delete -/

theorem nodeChange_unsynced (kc : Kclient) (now : Nat) (op : OpCode) (apiNode : ApiNode) :
    nodeChange kc false now op apiNode = some kc := by
  simp [nodeChange]

theorem configMapChange_no_host (kc : Kclient) (op : OpCode) (apiConfigMap : ApiConfigMap)
    (hn : kc.nodes = []) :
    (configMapChange kc op apiConfigMap).nodes = [] ∧
      (configMapChange kc op apiConfigMap).changes = kc.changes := by
  unfold configMapChange
  split <;> simp [hn]

theorem handleEvents_unsynced (events : List (Bool × Event)) (kc : Kclient)
    (hn : kc.nodes = []) (hc : kc.changes = [])
    (h : ∀ d ∈ events, d.1 = false) :
    ∃ kc', handleEvents kc events = some kc' ∧ kc'.changes = [] ∧ kc'.nodes = [] := by
  induction events generalizing kc with
  | nil => exact ⟨kc, rfl, hc, hn⟩
  | cons d rest ih =>
    obtain ⟨synced, ev⟩ := d
    have hs : synced = false := h (synced, ev) (List.mem_cons_self _ _)
    subst hs
    have hrest : ∀ d ∈ rest, d.1 = false := fun d hd => h d (List.mem_cons_of_mem _ hd)
    cases ev with
    | configMap op apiConfigMap =>
      have h1 := configMapChange_no_host kc op apiConfigMap hn
      obtain ⟨kc', h2, h3, h4⟩ := ih (configMapChange kc op apiConfigMap) h1.1
        (by rw [h1.2, hc]) hrest
      exact ⟨kc', by simp [handleEvents, handleEvent, h2], h3, h4⟩
    | node op apiNode now =>
      obtain ⟨kc', h2, h3, h4⟩ := ih kc hn hc hrest
      exact ⟨kc', by simp [handleEvents, handleEvent, nodeChange_unsynced, h2], h3, h4⟩

/-- Claim C11. From the initial detector state, every sequence of bundle and
host events delivered while the bundle-sync predicate is false is handled
without fault, enqueues no instruction and leaves the host table empty. -/
theorem no_instruction_before_sync (events : List (Bool × Event))
    (h : ∀ d ∈ events, d.1 = false) :
    ∃ kc', handleEvents Kclient.initial events = some kc' ∧
      kc'.changes = [] ∧ kc'.nodes = [] :=
  handleEvents_unsynced events Kclient.initial rfl rfl h

/-- Witness for claim C11: a labelled bundle add, then a host add and a host
event without address, all before sync. -/
theorem no_instruction_before_sync_witness :
    (∀ d ∈ [(false, Event.configMap OpCode.Add ⟨[("operator", "nto")], [("a.service", "S")]⟩),
        (false, Event.node OpCode.Add ⟨["10.0.0.1"], [⟨"Ready", "True"⟩]⟩ 1),
        (false, Event.node OpCode.Update ⟨[], []⟩ 2)], d.1 = false) ∧
    ∃ kc', handleEvents Kclient.initial
        [(false, Event.configMap OpCode.Add ⟨[("operator", "nto")], [("a.service", "S")]⟩),
         (false, Event.node OpCode.Add ⟨["10.0.0.1"], [⟨"Ready", "True"⟩]⟩ 1),
         (false, Event.node OpCode.Update ⟨[], []⟩ 2)] = some kc' ∧
      kc'.changes = [] ∧ kc'.nodes = [] :=
  ⟨by decide, no_instruction_before_sync _ (by decide)⟩

/-- Claim C12, the code on host events without address. Once the bundle watch
has synced, `nodeChange` faults on `apiNode.Status.Addresses[0]` for every host
event whose address list is empty: it does not complete. -/
theorem nodeChange_faults_without_address (kc : Kclient) (now : Nat) (op : OpCode)
    (conditions : List NodeCondition) :
    nodeChange kc true now op ⟨[], conditions⟩ = none := by
  simp [nodeChange]

theorem mapHas_foldl_mapSet {V W : Type} (f : V → W) (data : GoMap V) (acc : GoMap W)
    (k : String) :
    mapHas (data.foldl (fun u e => mapSet u e.1 (f e.2)) acc) k =
      (mapHas data k || mapHas acc k) := by
  induction data generalizing acc with
  | nil => simp [mapHas, mapGet]
  | cons e rest ih =>
    obtain ⟨a, b⟩ := e
    rw [List.foldl_cons, ih]
    by_cases hak : a = k
    · simp [mapHas, mapGet, mapGet_mapSet, hak]
    · simp [mapHas, mapGet, mapGet_mapSet, hak]

theorem mapGet_map_units (nodes : GoMap Node) (units : GoMap String) (a : String) :
    mapGet (nodes.map (fun e => (e.1, { e.2 with Units := units }))) a =
      (mapGet nodes a).map (fun n => { n with Units := units }) := by
  induction nodes with
  | nil => simp [mapGet]
  | cons e rest ih =>
    obtain ⟨b, n⟩ := e
    by_cases hb : b = a <;> simp [mapGet, hb, ih]

/-- Claim C13. A bundle event that carries the operator label enqueues exactly
one instruction per known host, in visiting order, each tagged with the
operation of the event and pointing to that host, whatever the readiness of the
hosts; afterwards every known host has the new process-wide bundle as its units
and is otherwise as before; the new bundle has the names of the event's data
for add and update and is empty for delete. -/
theorem configMapChange_labelled (kc : Kclient) (op : OpCode) (apiConfigMap : ApiConfigMap)
    (hl : mapGet apiConfigMap.Labels "operator" = some "nto") :
    (configMapChange kc op apiConfigMap).changes =
        kc.changes ++ kc.nodes.map (fun e => (⟨op, e.1⟩ : Instruction)) ∧
    (configMapChange kc op apiConfigMap).changes.length =
        kc.changes.length + kc.nodes.length ∧
    (∀ a, mapGet (configMapChange kc op apiConfigMap).nodes a =
        (mapGet kc.nodes a).map
          (fun n => { n with Units := (configMapChange kc op apiConfigMap).units })) ∧
    (∀ e ∈ (configMapChange kc op apiConfigMap).nodes,
        e.2.Units = (configMapChange kc op apiConfigMap).units) ∧
    ((op = OpCode.Add ∨ op = OpCode.Update) →
        ∀ name, mapHas (configMapChange kc op apiConfigMap).units name
          = mapHas apiConfigMap.Data name) ∧
    (op = OpCode.Delete → (configMapChange kc op apiConfigMap).units = []) := by
  have hc : configMapChange kc op apiConfigMap =
      { nodes := kc.nodes.map
          (fun e => (e.1, { e.2 with Units := unitsAfter kc.units op apiConfigMap }))
        units := unitsAfter kc.units op apiConfigMap
        changes := kc.changes ++ kc.nodes.map (fun e => (⟨op, e.1⟩ : Instruction)) } := by
    simp [configMapChange, mapHas, mapVal, configLabelKey, configLabelValue, hl]
  rw [hc]
  refine ⟨rfl, by simp, fun a => mapGet_map_units _ _ a, ?_, ?_, ?_⟩
  · intro e he
    simp only [List.mem_map] at he
    obtain ⟨e', _, rfl⟩ := he
    rfl
  · rintro (h | h) name <;> subst h <;>
      simp only [unitsAfter] <;> rw [mapHas_foldl_mapSet TrimSpace] <;> simp [mapHas, mapGet]
  · intro h
    subst h
    rfl

/-- Witness for claim C13: a labelled bundle update with two known hosts, one
ready and one not. -/
theorem configMapChange_labelled_witness :
    mapGet [("operator", "nto")] "operator" = some "nto" ∧
    (configMapChange
      ⟨[("10.0.0.1", ⟨"10.0.0.1", true, 1, [], 0, false⟩),
        ("10.0.0.2", ⟨"10.0.0.2", false, 2, [], 0, false⟩)], [], []⟩
      OpCode.Update ⟨[("operator", "nto")], [("a.service", " S ")]⟩).changes =
      [⟨OpCode.Update, "10.0.0.1"⟩, ⟨OpCode.Update, "10.0.0.2"⟩] :=
  ⟨by decide,
    (configMapChange_labelled
      ⟨[("10.0.0.1", ⟨"10.0.0.1", true, 1, [], 0, false⟩),
        ("10.0.0.2", ⟨"10.0.0.2", false, 2, [], 0, false⟩)], [], []⟩
      OpCode.Update ⟨[("operator", "nto")], [("a.service", " S ")]⟩ (by decide)).1⟩

/-- Claim C14, counterexample. A known host recorded not ready is deleted after
the bundle watch has synced: its units are cleared and it stays not ready, but
no instruction is enqueued. -/
theorem nodeChange_delete_not_ready_enqueues_nothing :
    nodeChange
      ⟨[("10.0.0.1", ⟨"10.0.0.1", false, 1, [("a.service", "S")], 0, false⟩)],
        [("a.service", "S")], []⟩
      true 2 OpCode.Delete ⟨["10.0.0.1"], []⟩ =
    some ⟨[("10.0.0.1", ⟨"10.0.0.1", false, 1, [], 0, false⟩)],
        [("a.service", "S")], []⟩ := by
  decide

/-- Claim C14, amended. For every known host, a host-delete event processed
after the bundle watch has synced marks the host not ready and clears its
units; it enqueues exactly one instruction for that host when the host was
recorded ready, and none when it was recorded not ready. -/
theorem nodeChange_delete (kc : Kclient) (now : Nat) (apiNode : ApiNode)
    (address : String) (n : Node)
    (ha : apiNode.Addresses.head? = some address)
    (hn : mapGet kc.nodes address = some n) :
    ∃ kc', nodeChange kc true now OpCode.Delete apiNode = some kc' ∧
      mapGet kc'.nodes address = some { n with Ready := false, Units := [] } ∧
      kc'.changes = kc.changes ++
        (if n.Ready = true then [⟨OpCode.Delete, address⟩] else []) := by
  obtain ⟨addrs, conds⟩ := apiNode
  cases addrs with
  | nil => simp at ha
  | cons a rest =>
    simp only [List.head?_cons, Option.some.injEq] at ha
    subst ha
    cases hq : n.Ready <;> simp [nodeChange, eventReady, hn, hq, mapGet_mapSet]

/-- Witness for claim C14 (amended): a known ready host is deleted. -/
theorem nodeChange_delete_witness :
    (["10.0.0.1"] : List String).head? = some "10.0.0.1" ∧
    mapGet [("10.0.0.1", (⟨"10.0.0.1", true, 1, [("a.service", "S")], 0, false⟩ : Node))]
      "10.0.0.1" = some ⟨"10.0.0.1", true, 1, [("a.service", "S")], 0, false⟩ ∧
    ∃ kc', nodeChange
        ⟨[("10.0.0.1", ⟨"10.0.0.1", true, 1, [("a.service", "S")], 0, false⟩)],
          [("a.service", "S")], []⟩
        true 2 OpCode.Delete ⟨["10.0.0.1"], []⟩ = some kc' ∧
      mapGet kc'.nodes "10.0.0.1" = some ⟨"10.0.0.1", false, 1, [], 0, false⟩ ∧
      kc'.changes = [] ++ [⟨OpCode.Delete, "10.0.0.1"⟩] :=
  ⟨by decide, by decide,
    nodeChange_delete
      ⟨[("10.0.0.1", ⟨"10.0.0.1", true, 1, [("a.service", "S")], 0, false⟩)],
        [("a.service", "S")], []⟩
      2 ⟨["10.0.0.1"], []⟩ "10.0.0.1" ⟨"10.0.0.1", true, 1, [("a.service", "S")], 0, false⟩
      (by decide) (by decide)⟩

/-! ## The applier: order and content of the operations -/

/-- The remote operations issued for the entries of a timer plan. -/
theorem applyOps_eq (dir : String) (cm : GoMap String) (timer service : GoMap action) :
    applyOps dir cm timer service =
      timer.flatMap (fun e => (applyTimer dir cm e.1 e.2).flatMap callOps) ++
        service.flatMap (fun e => (applyService dir cm e.1 e.2).flatMap callOps) := by
  simp [applyOps, apply, List.flatMap_append, List.flatMap_assoc]

/-- Claim C15. The remote operations issued by `apply` are those of the
timer-plan entries, in visiting order, followed by those of the service-plan
entries: an operation of a timer-plan entry stands at a position before the
number of timer operations, an operation of a service-plan entry at a position
from that number on, so every operation of a timer-plan entry precedes every
operation of a service-plan entry. -/
theorem apply_timer_plan_before_service_plan (dir : String) (cm : GoMap String)
    (timer service : GoMap action) :
    applyOps dir cm timer service =
      timer.flatMap (fun e => (applyTimer dir cm e.1 e.2).flatMap callOps) ++
        service.flatMap (fun e => (applyService dir cm e.1 e.2).flatMap callOps) ∧
    (applyOps dir cm timer service).take
        (timer.flatMap (fun e => (applyTimer dir cm e.1 e.2).flatMap callOps)).length =
      timer.flatMap (fun e => (applyTimer dir cm e.1 e.2).flatMap callOps) ∧
    (applyOps dir cm timer service).drop
        (timer.flatMap (fun e => (applyTimer dir cm e.1 e.2).flatMap callOps)).length =
      service.flatMap (fun e => (applyService dir cm e.1 e.2).flatMap callOps) := by
  rw [applyOps_eq]
  simp

/-- Claim C16. For a plan entry `(n, a)`, `apply` issues exactly the calls
listed for the kind of plan and the action `a`, in that order, each upload with
the desired content stored under the name of the file; and for whole plans it
issues the calls of each entry, timer plan first, and nothing else. -/
theorem apply_entry_calls (dir : String) (cm : GoMap String) (n : String) :
    apply dir cm [(n, action.create)] [] =
      [Call.copyFile dir (n ++ ".timer") (mapVal cm (n ++ ".timer")),
       Call.copyFile dir (n ++ ".service") (mapVal cm (n ++ ".service")),
       Call.unit UnitCmd.Start (n ++ ".timer")] ∧
    apply dir cm [(n, action.update)] [] =
      [Call.copyFile dir (n ++ ".timer") (mapVal cm (n ++ ".timer")),
       Call.copyFile dir (n ++ ".service") (mapVal cm (n ++ ".service")),
       Call.daemonReload] ∧
    apply dir cm [(n, action.delete)] [] =
      [Call.unit UnitCmd.Stop (n ++ ".timer"),
       Call.deleteFile dir (n ++ ".timer"),
       Call.deleteFile dir (n ++ ".service")] ∧
    apply dir cm [] [(n, action.create)] =
      [Call.copyFile dir (n ++ ".service") (mapVal cm (n ++ ".service")),
       Call.daemonReload,
       Call.unitFile UnitFileCmd.Enable (n ++ ".service"),
       Call.unit UnitCmd.Start (n ++ ".service")] ∧
    apply dir cm [] [(n, action.update)] =
      [Call.copyFile dir (n ++ ".service") (mapVal cm (n ++ ".service")),
       Call.daemonReload] ∧
    apply dir cm [] [(n, action.delete)] =
      [Call.unit UnitCmd.Stop (n ++ ".service"),
       Call.unitFile UnitFileCmd.Disable (n ++ ".service"),
       Call.deleteFile dir (n ++ ".service")] ∧
    (∀ timer service : GoMap action, apply dir cm timer service =
      timer.flatMap (fun e => apply dir cm [e] []) ++
        service.flatMap (fun e => apply dir cm [] [e])) := by
  refine ⟨?_, ?_, ?_, ?_, ?_, ?_, ?_⟩
  · simp [apply, applyTimer, createTimer]
  · simp [apply, applyTimer, updateTimer]
  · simp [apply, applyTimer, deleteTimer]
  · simp [apply, applyService, createService]
  · simp [apply, applyService, updateService]
  · simp [apply, applyService, deleteService]
  · intro timer service
    simp [apply]

/-- Claim C17, the code. `copyFile` issues three operations: the upload of the
data to `/var/tmp/<name>`, the change of owner to `root:root`, and the move
into the target directory; the upload is made with the permissions `0644`, not
the `664` of the claim and of the comment of `copyFile`. -/
theorem copyFile_ops (dir name data : String) :
    copyFile dir name data =
      [RemoteOp.ScpTo data ("/var/tmp/" ++ name) 0o644,
       RemoteOp.Exec "sudo" ["chown", "root:root", "/var/tmp/" ++ name],
       RemoteOp.Exec "sudo" ["mv", "/var/tmp/" ++ name, dir]] ∧
    (0o644 : Nat) ≠ 0o664 := by
  exact ⟨rfl, by decide⟩

/-! ## Reconcile: errors -/

/-- A batch whose operations before `o` succeed and whose operation `o` fails:
the operations up to `o` are executed, the ones after it are not, and the error
of `o` is the error of the batch. -/
theorem runBatchFrom_first_failure (batchErr : Nat → RemoteOp → Option String)
    (pre : List RemoteOp) (o : RemoteOp) (post : List RemoteOp) (e : String) (k : Nat)
    (hpre : ∀ j x, pre[j]? = some x → batchErr (k + j) x = none)
    (ho : batchErr (k + pre.length) o = some e) :
    runBatchFrom batchErr k (pre ++ o :: post) = (pre ++ [o], some e) := by
  induction pre generalizing k with
  | nil =>
    have ho' : batchErr k o = some e := by simpa using ho
    simp [runBatchFrom, ho']
  | cons p rest ih =>
    have hp : batchErr k p = none := by
      have := hpre 0 p (by simp)
      simpa using this
    have hrest := ih (k + 1)
      (fun j x hx => by
        have := hpre (j + 1) x (by simpa using hx)
        rw [show k + 1 + j = k + (j + 1) by omega]
        exact this)
      (by
        rw [show k + 1 + rest.length = k + (rest.length + 1) by omega]
        simpa using ho)
    simp [runBatchFrom, hp, hrest]

/-- A batch in which every operation succeeds is executed whole, without
error. -/
theorem runBatchFrom_all_succeed (batchErr : Nat → RemoteOp → Option String)
    (ops : List RemoteOp) (k : Nat)
    (h : ∀ j x, ops[j]? = some x → batchErr (k + j) x = none) :
    runBatchFrom batchErr k ops = (ops, none) := by
  induction ops generalizing k with
  | nil => rfl
  | cons p rest ih =>
    have hp : batchErr k p = none := by
      have := h 0 p (by simp)
      simpa using this
    have hrest := ih (k + 1)
      (fun j x hx => by
        have := h (j + 1) x (by simpa using hx)
        rw [show k + 1 + j = k + (j + 1) by omega]
        exact this)
    simp [runBatchFrom, hp, hrest]

/-- Claim C18. In a `Reconcile` that reaches the apply batch, when the
operations `pre` of the batch succeed and the next operation `o` fails with the
error `e`: the operations executed on the connection after the hashing command
are `pre` and `o`, in order, and then only the close, so none of the later
operations `post` is executed and nothing is undone; and `Reconcile` returns
the error `apply: e`. -/
theorem Reconcile_apply_stops_at_first_error (op : operator) (sha1 : String → String)
    (remote : Remote) (ip : String) (desiredState : GoMap String)
    (remoteHash : GoMap String) (pre : List RemoteOp) (o : RemoteOp) (post : List RemoteOp)
    (e : String)
    (hd : dialErr op remote = none)
    (hs : getSha1OfFiles remote.sha1sumOut remote.sha1sumErr = Except.ok remoteHash)
    (hops : applyOps op.systemDir (prefixedUnits op desiredState)
        (calculateActions (getSha1OfMap sha1 (prefixedUnits op desiredState)) remoteHash).timer
        (calculateActions (getSha1OfMap sha1 (prefixedUnits op desiredState)) remoteHash).service
      = pre ++ o :: post)
    (hpre : ∀ j x, pre[j]? = some x → remote.batchErr j x = none)
    (ho : remote.batchErr pre.length o = some e) :
    Reconcile op sha1 remote ip desiredState =
      ⟨[dialCall op ip, ChannelCall.op (sha1sumCall op)]
          ++ (pre ++ [o]).map ChannelCall.op ++ [ChannelCall.Close],
        some (calculateActions (getSha1OfMap sha1 (prefixedUnits op desiredState)) remoteHash),
        some ("apply: " ++ e)⟩ := by
  have hb := runBatchFrom_first_failure remote.batchErr pre o post e 0
    (fun j x hx => by simpa using hpre j x hx) (by simpa using ho)
  simp only [Reconcile, hd, hs, hops, hb]

/-- Witness for claim C18: a batch of three operations (the delete of the
timer `op-x`) whose second operation fails. -/
theorem Reconcile_apply_stops_at_first_error_witness :
    Reconcile (New "u" "p" "" "op" "/d") (fun s => s)
      ⟨none, none, "h1  /d/op-x.service\nh2  /d/op-x.timer\n", none,
        fun k _ => if k = 1 then some "Process exited with status 1" else none⟩
      "10.0.0.1" [] =
    ⟨[ChannelCall.DailWithPassword "10.0.0.1" "u" "p",
      ChannelCall.op (RemoteOp.Exec "sha1sum" ["/d/op-*"]),
      ChannelCall.op (RemoteOp.Exec "sudo" ["systemctl", "stop", "op-x.timer"]),
      ChannelCall.op (RemoteOp.Exec "sudo" ["rm", "/d/op-x.timer"]),
      ChannelCall.Close],
     some ⟨[("op-x", action.delete)], []⟩,
     some "apply: Process exited with status 1"⟩ :=
  Reconcile_apply_stops_at_first_error (New "u" "p" "" "op" "/d") (fun s => s)
    ⟨none, none, "h1  /d/op-x.service\nh2  /d/op-x.timer\n", none,
      fun k _ => if k = 1 then some "Process exited with status 1" else none⟩
    "10.0.0.1" [] [("op-x.service", "h1"), ("op-x.timer", "h2")]
    [RemoteOp.Exec "sudo" ["systemctl", "stop", "op-x.timer"]]
    (RemoteOp.Exec "sudo" ["rm", "/d/op-x.timer"])
    [RemoteOp.Exec "sudo" ["rm", "/d/op-x.service"]]
    "Process exited with status 1"
    rfl rfl (by decide)
    (fun j x hx => by
      have hj : j = 0 := by
        cases j with
        | zero => rfl
        | succ j => simp at hx
      subst hj
      rfl)
    rfl

/-- Claim C19. When the dial fails (the dial with the key when a key is
configured, the dial with the password otherwise), `Reconcile` returns an error
and does nothing else on the remote channel: one dial, not repeated, no command
and no upload; no plan is computed. -/
theorem Reconcile_dial_fails (op : operator) (sha1 : String → String) (remote : Remote)
    (ip : String) (desiredState : GoMap String) (e : String)
    (hd : (if op.sshKey ≠ "" then remote.dialWithKey else remote.dialWithPassword) = some e) :
    (Reconcile op sha1 remote ip desiredState).calls =
      [if op.sshKey ≠ "" then ChannelCall.DailSSHWithKey ip op.sshUser op.sshPass op.sshKey
        else ChannelCall.DailWithPassword ip op.sshUser op.sshPass] ∧
    (Reconcile op sha1 remote ip desiredState).err.isSome = true ∧
    (Reconcile op sha1 remote ip desiredState).plans = none := by
  have hd' : dialErr op remote = some e := hd
  simp [Reconcile, hd', dialCall]

/-- Witness for claim C19: a key is configured and the dial with the key
fails. -/
theorem Reconcile_dial_fails_witness :
    (Reconcile (New "u" "p" "KEY" "op" "/d") (fun s => s)
      ⟨some "connection refused", none, "", none, fun _ _ => none⟩
      "10.0.0.1" [("a.service", "S")]).calls =
      [ChannelCall.DailSSHWithKey "10.0.0.1" "u" "p" "KEY"] ∧
    (Reconcile (New "u" "p" "KEY" "op" "/d") (fun s => s)
      ⟨some "connection refused", none, "", none, fun _ _ => none⟩
      "10.0.0.1" [("a.service", "S")]).err.isSome = true :=
  have h := Reconcile_dial_fails (New "u" "p" "KEY" "op" "/d") (fun s => s)
    ⟨some "connection refused", none, "", none, fun _ _ => none⟩
    "10.0.0.1" [("a.service", "S")] "connection refused" rfl
  ⟨h.1, h.2.1⟩

/-- Claim C20. `getSha1OfFiles` returns the empty table and no error when the
hashing command fails with an error that ends in
`Process exited with status 1`, and returns an error exactly when the command
fails with any other error. Once connected, `Reconcile` in the second case
returns an error after the hashing command, without a plan and without any
operation of an apply batch; in the first case it goes on and plans against the
empty observed table. -/
theorem getSha1OfFiles_errors (op : operator) (sha1 : String → String) (remote : Remote)
    (ip : String) (desiredState : GoMap String) (hd : dialErr op remote = none) :
    (∀ out e, HasSuffix e "Process exited with status 1" = true →
      getSha1OfFiles out (some e) = Except.ok []) ∧
    (∀ out err, (∃ e', getSha1OfFiles out err = Except.error e') ↔
      ∃ e, err = some e ∧ HasSuffix e "Process exited with status 1" = false) ∧
    (∀ e, remote.sha1sumErr = some e →
      HasSuffix e "Process exited with status 1" = false →
      Reconcile op sha1 remote ip desiredState =
        ⟨[dialCall op ip, ChannelCall.op (sha1sumCall op), ChannelCall.Close], none,
          some ("get sha1: " ++ e)⟩) ∧
    (∀ e, remote.sha1sumErr = some e →
      HasSuffix e "Process exited with status 1" = true →
      (Reconcile op sha1 remote ip desiredState).plans =
        some (calculateActions (getSha1OfMap sha1 (prefixedUnits op desiredState)) [])) := by
  refine ⟨?_, ?_, ?_, ?_⟩
  · intro out e he
    simp [getSha1OfFiles, he]
  · intro out err
    cases err with
    | none => simp [getSha1OfFiles]
    | some e =>
      cases he : HasSuffix e "Process exited with status 1" <;> simp [getSha1OfFiles, he]
  · intro e herr he
    simp [Reconcile, hd, getSha1OfFiles, herr, he]
  · intro e herr he
    simp [Reconcile, hd, getSha1OfFiles, herr, he]

/-- Witness for claim C20: no file matches on a host that is to get one
service; the plan is made against the empty table. -/
theorem getSha1OfFiles_errors_witness :
    dialErr (New "u" "p" "" "op" "/d")
      ⟨none, none, "", some "Process exited with status 1", fun _ _ => none⟩ = none ∧
    (Reconcile (New "u" "p" "" "op" "/d") (fun s => s)
      ⟨none, none, "", some "Process exited with status 1", fun _ _ => none⟩
      "10.0.0.1" [("a.service", "S")]).plans =
      some (calculateActions
        (getSha1OfMap (fun s => s) (prefixedUnits (New "u" "p" "" "op" "/d")
          [("a.service", "S")])) []) :=
  ⟨rfl,
    (getSha1OfFiles_errors (New "u" "p" "" "op" "/d") (fun s => s)
      ⟨none, none, "", some "Process exited with status 1", fun _ _ => none⟩
      "10.0.0.1" [("a.service", "S")] rfl).2.2.2 "Process exited with status 1" rfl
      (by decide)⟩

/-! ## The change detector: the label filter and the trimmed bundle -/

/-- Claim C23. A bundle event whose labels do not carry `operator=nto` (the key
is absent or has another value) leaves the detector as it is, whatever the
operation: the process-wide bundle, every host record and the queue are
unchanged. -/
theorem configMapChange_unlabelled (kc : Kclient) (op : OpCode) (apiConfigMap : ApiConfigMap)
    (hl : mapGet apiConfigMap.Labels "operator" ≠ some "nto") :
    configMapChange kc op apiConfigMap = kc := by
  unfold configMapChange
  cases hg : mapGet apiConfigMap.Labels "operator" with
  | none => simp [mapHas, configLabelKey, hg]
  | some v =>
    have hv : v ≠ "nto" := fun e => hl (by rw [hg, e])
    simp [mapHas, mapVal, configLabelKey, configLabelValue, hg, hv]

/-- Witness for claim C23: a bundle with another value of the label and a
bundle without the label, with one known host. -/
theorem configMapChange_unlabelled_witness :
    mapGet [("operator", "other")] "operator" ≠ some "nto" ∧
    configMapChange ⟨[("10.0.0.1", ⟨"10.0.0.1", true, 1, [], 0, false⟩)], [], []⟩
      OpCode.Add ⟨[("operator", "other")], [("a.service", "S")]⟩ =
      ⟨[("10.0.0.1", ⟨"10.0.0.1", true, 1, [], 0, false⟩)], [], []⟩ :=
  ⟨by decide, configMapChange_unlabelled _ _ _ (by decide)⟩

theorem takeWhile_reverse_dropWhile (p : Char → Bool) (d : List Char) :
    d = (d.reverse.dropWhile p).reverse ++ (d.reverse.takeWhile p).reverse := by
  have h := List.takeWhile_append_dropWhile p d.reverse
  have h2 := congrArg List.reverse h
  simp only [List.reverse_append, List.reverse_reverse] at h2
  exact h2.symm

/-- The string `TrimSpace s` is `s` without a run of white space at its start
and a run of white space at its end, and it neither starts nor ends with white
space. -/
theorem TrimSpace_spec (s : String) :
    (∃ l r : List Char, s.data = l ++ (TrimSpace s).data ++ r ∧
      (∀ c ∈ l, isSpace c = true) ∧ (∀ c ∈ r, isSpace c = true)) ∧
    (∀ c, (TrimSpace s).data.head? = some c → isSpace c = false) ∧
    (∀ c, (TrimSpace s).data.getLast? = some c → isSpace c = false) := by
  have hd := takeWhile_reverse_dropWhile isSpace (s.data.dropWhile isSpace)
  refine ⟨⟨s.data.takeWhile isSpace,
    ((s.data.dropWhile isSpace).reverse.takeWhile isSpace).reverse, ?_, ?_, ?_⟩, ?_, ?_⟩
  · simp only [TrimSpace]
    rw [List.append_assoc, ← hd, List.takeWhile_append_dropWhile]
  · intro c hc
    exact (List.mem_takeWhile_imp hc)
  · intro c hc
    exact List.mem_takeWhile_imp (List.mem_reverse.1 hc)
  · intro c hc
    simp only [TrimSpace] at hc
    cases hr : ((s.data.dropWhile isSpace).reverse.dropWhile isSpace).reverse with
    | nil => rw [hr] at hc; simp at hc
    | cons x xs =>
      rw [hr] at hc hd
      simp only [List.head?_cons, Option.some.injEq] at hc
      subst hc
      have hx : (s.data.dropWhile isSpace).head? = some x := by rw [hd]; simp
      have := List.head?_dropWhile_not isSpace s.data
      rw [hx] at this
      simpa using this
  · intro c hc
    simp only [TrimSpace, List.getLast?_reverse] at hc
    have := List.head?_dropWhile_not isSpace (s.data.dropWhile isSpace).reverse
    rw [hc] at this
    simpa using this

/-- Claim C28. After a labelled bundle add or update with the (well-formed)
data `D`, the process-wide bundle has exactly the names of `D`, each with the
content of `D` for that name trimmed: the content without the white space at
its start and at its end. -/
theorem configMapChange_trims (kc : Kclient) (op : OpCode) (apiConfigMap : ApiConfigMap)
    (hl : mapGet apiConfigMap.Labels "operator" = some "nto")
    (hop : op = OpCode.Add ∨ op = OpCode.Update)
    (hD : WellFormed apiConfigMap.Data) :
    (∀ name, mapGet (configMapChange kc op apiConfigMap).units name =
        (mapGet apiConfigMap.Data name).map TrimSpace) ∧
    (∀ name, mapHas (configMapChange kc op apiConfigMap).units name =
        mapHas apiConfigMap.Data name) ∧
    (∀ s : String, (∃ l r : List Char, s.data = l ++ (TrimSpace s).data ++ r ∧
        (∀ c ∈ l, isSpace c = true) ∧ (∀ c ∈ r, isSpace c = true)) ∧
      (∀ c, (TrimSpace s).data.head? = some c → isSpace c = false) ∧
      (∀ c, (TrimSpace s).data.getLast? = some c → isSpace c = false)) := by
  have hu : (configMapChange kc op apiConfigMap).units =
      apiConfigMap.Data.foldl (fun u e => mapSet u e.1 (TrimSpace e.2)) [] := by
    rcases hop with h | h <;> subst h <;>
      simp [configMapChange, mapHas, mapVal, configLabelKey, configLabelValue, hl, unitsAfter]
  have hg : ∀ name, mapGet (configMapChange kc op apiConfigMap).units name =
      (mapGet apiConfigMap.Data name).map TrimSpace := by
    intro name
    rw [hu, mapGet_foldl_hash TrimSpace apiConfigMap.Data hD]
    cases mapGet apiConfigMap.Data name <;> simp [mapGet]
  refine ⟨hg, ?_, TrimSpace_spec⟩
  intro name
  simp only [mapHas, hg]
  cases mapGet apiConfigMap.Data name <;> rfl

/-- Witness for claim C28: a labelled bundle add whose content has white space
on both sides. -/
theorem configMapChange_trims_witness :
    mapGet [("operator", "nto")] "operator" = some "nto" ∧
    WellFormed [("a.service", "\n [Unit]\nDescription=a \n\n")] ∧
    mapGet (configMapChange Kclient.initial OpCode.Add
      ⟨[("operator", "nto")], [("a.service", "\n [Unit]\nDescription=a \n\n")]⟩).units
      "a.service" = some "[Unit]\nDescription=a" :=
  ⟨by decide, by decide,
    ((configMapChange_trims Kclient.initial OpCode.Add
      ⟨[("operator", "nto")], [("a.service", "\n [Unit]\nDescription=a \n\n")]⟩
      (by decide) (Or.inl rfl) (by decide)).1 "a.service").trans (by decide)⟩

/-! ## String sets -/

theorem isSubsetLoop_iff (other : stringset.Set) (elems : List String) :
    stringset.isSubsetLoop other elems = true ↔
      ∀ i ∈ elems, stringset.Contains other i = true := by
  induction elems with
  | nil => simp [stringset.isSubsetLoop]
  | cons e rest ih =>
    cases h : stringset.Contains other e <;> simp [stringset.isSubsetLoop, h, ih]

/-- The method `IsSubset` tests that every item of the receiver is in the other
set. -/
theorem isSubset_iff (set other : stringset.Set) :
    stringset.IsSubset set other = true ↔
      ∀ i, stringset.Contains set i = true → stringset.Contains other i = true := by
  unfold stringset.IsSubset
  rw [isSubsetLoop_iff]
  simp only [stringset.Contains, mapHas_iff_mem_keys]

/-- Claim C24, the code. `s.IsSubset(other)` is true exactly when every item of
`s` is in `other`, not when every item of `other` is in `s`: with `s = {a}` and
`other = {a, b}` it returns true although `b` of `other` is not in `s`. -/
theorem IsSubset_tests_receiver_in_other :
    (∀ s other : stringset.Set, stringset.IsSubset s other = true ↔
      ∀ i, stringset.Contains s i = true → stringset.Contains other i = true) ∧
    stringset.IsSubset (stringset.New ["a"]) (stringset.New ["a", "b"]) = true ∧
    stringset.Contains (stringset.New ["a", "b"]) "b" = true ∧
    stringset.Contains (stringset.New ["a"]) "b" = false :=
  ⟨isSubset_iff, by decide, by decide, by decide⟩

/-- Claim C25, the code. `s.IsSuperset(other)` is true exactly when every item
of `other` is in `s`, not when every item of `s` is in `other`: with `s = {a}`
and `other = {a, b}` it returns false although the one item of `s` is in
`other`. -/
theorem IsSuperset_tests_other_in_receiver :
    (∀ s other : stringset.Set, stringset.IsSuperset s other = true ↔
      ∀ i, stringset.Contains other i = true → stringset.Contains s i = true) ∧
    stringset.IsSuperset (stringset.New ["a"]) (stringset.New ["a", "b"]) = false ∧
    mapKeys (stringset.New ["a"]) = ["a"] ∧
    stringset.Contains (stringset.New ["a", "b"]) "a" = true :=
  ⟨fun s other => isSubset_iff other s, by decide, by decide, by decide⟩

/-! ## The operator's namespace -/

theorem hasPrefix_iff (s pre : String) :
    HasPrefix s pre = true ↔ ∃ t : List Char, s.data = pre.data ++ t := by
  simp only [HasPrefix, List.isPrefixOf_iff_prefix]
  constructor
  · rintro ⟨t, ht⟩
    exact ⟨t, ht.symm⟩
  · rintro ⟨t, ht⟩
    exact ⟨t, ht.symm⟩

theorem hasPrefix_append (n pre suf : String) (h : HasPrefix n pre = true) :
    HasPrefix (n ++ suf) pre = true := by
  rw [hasPrefix_iff] at h ⊢
  obtain ⟨t, ht⟩ := h
  exact ⟨t ++ suf.data, by simp [ht]⟩

/-- A base name whose `.service` file name starts with an operator prefix
`id-` starts with that prefix itself: the suffix has no `-`. -/
theorem hasPrefix_of_service (n operatorId : String)
    (h : HasPrefix (n ++ ".service") (operatorId ++ "-") = true) :
    HasPrefix n (operatorId ++ "-") = true := by
  rw [hasPrefix_iff] at h ⊢
  obtain ⟨t, ht⟩ := h
  simp only [String.data_append] at ht ⊢
  rcases List.append_eq_append_iff.1 ht with ⟨a, ha, hs⟩ | ⟨c, hc, _⟩
  · cases a with
    | nil => exact ⟨[], by simpa using ha.symm⟩
    | cons x xs =>
      exfalso
      have hl := congrArg List.getLast? ha
      have h1 : (operatorId.data ++ "-".data).getLast? = some '-' := by
        simp [List.getLast?_append]
      have h2 : (n.data ++ x :: xs).getLast? = (x :: xs).getLast? := by
        rw [List.getLast?_append]
        cases hx : (x :: xs).getLast? with
        | none => simp at hx
        | some y => simp
      rw [h1, h2] at hl
      have hmem : '-' ∈ x :: xs := List.mem_of_mem_getLast? hl.symm
      have hmem2 : '-' ∈ x :: xs ++ t := List.mem_append_left _ hmem
      rw [← hs] at hmem2
      revert hmem2
      decide
  · exact ⟨c, hc⟩

theorem mapHas_prefixedUnits (p : String) (d acc : GoMap String) (x : String) :
    mapHas (d.foldl (fun cm e => mapSet cm (p ++ e.1) e.2) acc) x = true ↔
      (∃ k, mapHas d k = true ∧ x = p ++ k) ∨ mapHas acc x = true := by
  induction d generalizing acc with
  | nil => simp [mapHas, mapGet]
  | cons e rest ih =>
    obtain ⟨a, b⟩ := e
    rw [List.foldl_cons, ih]
    constructor
    · rintro (⟨k, hk, rfl⟩ | h)
      · left
        refine ⟨k, ?_, rfl⟩
        by_cases hak : a = k <;> simp_all [mapHas, mapGet]
      · by_cases hx : p ++ a = x
        · left
          exact ⟨a, by simp [mapHas, mapGet], hx.symm⟩
        · right
          simpa [mapHas, mapGet_mapSet, hx] using h
    · rintro (⟨k, hk, rfl⟩ | h)
      · by_cases hak : a = k
        · right
          subst hak
          simp [mapHas, mapGet_mapSet]
        · left
          refine ⟨k, ?_, rfl⟩
          simpa [mapHas, mapGet, hak] using hk
      · right
        by_cases hx : p ++ a = x <;> simp_all [mapHas, mapGet_mapSet]

theorem mapHas_of_mem {V : Type} (m : GoMap V) (e : String × V) (h : e ∈ m) :
    mapHas m e.1 = true :=
  (mapHas_iff_mem_keys m e.1).2 (List.mem_map.2 ⟨e, h, rfl⟩)

theorem timer_entry_has_service (d o : GoMap String) (n : String)
    (h : mapHas (calculateActions d o).timer n = true) :
    mapHas d (n ++ ".service") = true ∨ mapHas o (n ++ ".service") = true := by
  rw [mapHas, mapGet_timer_calculateActions] at h
  cases h1 : mapHas d (n ++ ".service") <;> cases h2 : mapHas o (n ++ ".service") <;>
    simp_all

theorem service_entry_has_service (d o : GoMap String) (n : String)
    (h : mapHas (calculateActions d o).service n = true) :
    mapHas d (n ++ ".service") = true := by
  rw [mapHas, mapGet_service_calculateActions] at h
  cases h1 : mapHas d (n ++ ".service") <;> simp_all

theorem applyTimer_file (dir : String) (cm : GoMap String) (n : String) (a : action) :
    ∀ c ∈ applyTimer dir cm n a, ∀ f, c.file = some f →
      f = n ++ ".timer" ∨ f = n ++ ".service" := by
  cases a <;> simp [applyTimer, createTimer, updateTimer, deleteTimer, Call.file]

theorem applyService_file (dir : String) (cm : GoMap String) (n : String) (a : action) :
    ∀ c ∈ applyService dir cm n a, ∀ f, c.file = some f → f = n ++ ".service" := by
  cases a <;> simp [applyService, createService, updateService, deleteService, Call.file]

/-- Claim C26. With the operator made by `New` for the identifier
`operatorId`: the desired fingerprint table of `Reconcile` has exactly the
names `operatorId-k` for the desired names `k`; and for every observed table
whose names all start with `operatorId-`, every base name of the timer plan and
of the service plan starts with `operatorId-`, and so does every file that
`apply` uploads or removes for these plans. -/
theorem plans_in_operator_namespace (sshUser sshPass sshKey operatorId systemDir : String)
    (sha1 : String → String) (desiredState remoteHash : GoMap String)
    (hr : ∀ k, mapHas remoteHash k = true → HasPrefix k (operatorId ++ "-") = true) :
    (∀ x, mapHas (getSha1OfMap sha1
          (prefixedUnits (New sshUser sshPass sshKey operatorId systemDir) desiredState)) x = true ↔
        ∃ k, mapHas desiredState k = true ∧ x = operatorId ++ "-" ++ k) ∧
    (∀ n, mapHas (calculateActions (getSha1OfMap sha1
          (prefixedUnits (New sshUser sshPass sshKey operatorId systemDir) desiredState))
          remoteHash).timer n = true → HasPrefix n (operatorId ++ "-") = true) ∧
    (∀ n, mapHas (calculateActions (getSha1OfMap sha1
          (prefixedUnits (New sshUser sshPass sshKey operatorId systemDir) desiredState))
          remoteHash).service n = true → HasPrefix n (operatorId ++ "-") = true) ∧
    (∀ c ∈ apply systemDir
        (prefixedUnits (New sshUser sshPass sshKey operatorId systemDir) desiredState)
        (calculateActions (getSha1OfMap sha1
          (prefixedUnits (New sshUser sshPass sshKey operatorId systemDir) desiredState))
          remoteHash).timer
        (calculateActions (getSha1OfMap sha1
          (prefixedUnits (New sshUser sshPass sshKey operatorId systemDir) desiredState))
          remoteHash).service,
      ∀ f, c.file = some f → HasPrefix f (operatorId ++ "-") = true) := by
  have hkeys : ∀ x, mapHas (getSha1OfMap sha1
        (prefixedUnits (New sshUser sshPass sshKey operatorId systemDir) desiredState)) x = true ↔
      ∃ k, mapHas desiredState k = true ∧ x = operatorId ++ "-" ++ k := by
    intro x
    unfold getSha1OfMap prefixedUnits
    rw [mapHas_foldl_mapSet sha1]
    have h0 : mapHas ([] : GoMap String) x = false := rfl
    rw [h0, Bool.or_false, mapHas_prefixedUnits]
    simp [mapHas, mapGet, New]
  have hlocal : ∀ n, mapHas (getSha1OfMap sha1
        (prefixedUnits (New sshUser sshPass sshKey operatorId systemDir) desiredState))
        (n ++ ".service") = true → HasPrefix n (operatorId ++ "-") = true := by
    intro n hn
    obtain ⟨k, _, hk⟩ := (hkeys _).1 hn
    apply hasPrefix_of_service
    rw [hk, hasPrefix_iff]
    exact ⟨k.data, by simp⟩
  have htimer : ∀ n, mapHas (calculateActions (getSha1OfMap sha1
        (prefixedUnits (New sshUser sshPass sshKey operatorId systemDir) desiredState))
        remoteHash).timer n = true → HasPrefix n (operatorId ++ "-") = true := by
    intro n hn
    rcases timer_entry_has_service _ _ n hn with h | h
    · exact hlocal n h
    · exact hasPrefix_of_service n operatorId (hr _ h)
  have hservice : ∀ n, mapHas (calculateActions (getSha1OfMap sha1
        (prefixedUnits (New sshUser sshPass sshKey operatorId systemDir) desiredState))
        remoteHash).service n = true → HasPrefix n (operatorId ++ "-") = true :=
    fun n hn => hlocal n (service_entry_has_service _ _ n hn)
  refine ⟨hkeys, htimer, hservice, ?_⟩
  intro c hc f hf
  simp only [apply, List.mem_append, List.mem_flatMap] at hc
  rcases hc with ⟨e, he, hce⟩ | ⟨e, he, hce⟩
  · have hp := htimer e.1 (mapHas_of_mem _ e he)
    rcases applyTimer_file _ _ _ _ c hce f hf with rfl | rfl <;>
      exact hasPrefix_append _ _ _ hp
  · have hp := hservice e.1 (mapHas_of_mem _ e he)
    rw [applyService_file _ _ _ _ c hce f hf]
    exact hasPrefix_append _ _ _ hp

/-- Witness for claim C26: the operator `nto`, one desired timer pair and one
remote service to delete. -/
theorem plans_in_operator_namespace_witness :
    (∀ k, mapHas [("nto-b.service", "h1")] k = true → HasPrefix k ("nto" ++ "-") = true) ∧
    (∀ n, mapHas (calculateActions (getSha1OfMap (fun s => s)
          (prefixedUnits (New "u" "p" "" "nto" "/etc/systemd/system/")
            [("a.service", "S"), ("a.timer", "T")]))
          [("nto-b.service", "h1")]).timer n = true → HasPrefix n ("nto" ++ "-") = true) :=
  ⟨by
      intro k hk
      have hk2 : k = "nto-b.service" := by
        by_cases h : "nto-b.service" = k
        · exact h.symm
        · simp [mapHas, mapGet, h] at hk
      subst hk2
      decide,
    (plans_in_operator_namespace "u" "p" "" "nto" "/etc/systemd/system/" (fun s => s)
      [("a.service", "S"), ("a.timer", "T")] [("nto-b.service", "h1")]
      (by
        intro k hk
        have hk2 : k = "nto-b.service" := by
          by_cases h : "nto-b.service" = k
          · exact h.symm
          · simp [mapHas, mapGet, h] at hk
        subst hk2
        decide)).2.1⟩

/-! ## SHA-1 fingerprints -/

set_option maxRecDepth 100000 in
/-- Test vector of SHA-1: the message `abc`. -/
theorem sha1Hex_abc : sha1Hex "abc" = "a9993e364706816aba3e25717850c26c9cd0d89d" := by
  rfl

set_option maxRecDepth 100000 in
/-- Test vector of SHA-1: the empty message. -/
theorem sha1Hex_empty : sha1Hex "" = "da39a3ee5e6b4b0d3255bfef95601890afd80709" := by
  rfl

set_option maxRecDepth 100000 in
/-- Test vector of SHA-1: a message of 56 bytes, padded to two blocks. -/
theorem sha1Hex_two_blocks :
    sha1Hex "abcdbcdecdefdefgefghfghighijhijkijkljklmklmnlmnomnopnopq"
      = "84983e441c3bd26ebaae4aa1f95129e5e54670f1" := by
  rfl

theorem length_sha1Sum (msg : List Nat) : (sha1Sum msg).length = 20 := by
  simp [sha1Sum, bigEndian]

theorem length_sprintfHex (bs : List Nat) : (sprintfHex bs).length = 2 * bs.length := by
  simp only [sprintfHex, String.length]
  induction bs with
  | nil => rfl
  | cons b rest ih =>
    simp only [List.flatMap_cons, List.length_append, List.length_cons, List.length_nil, ih]
    omega

theorem hexDigit_mem (n : Nat) (h : n < 16) : hexDigit n ∈ "0123456789abcdef".data := by
  interval_cases n <;> decide

theorem sprintfHex_digits (bs : List Nat) :
    ∀ c ∈ (sprintfHex bs).data, c ∈ "0123456789abcdef".data := by
  intro c hc
  simp only [sprintfHex, List.mem_flatMap, List.mem_cons, List.mem_singleton,
    List.not_mem_nil, or_false] at hc
  obtain ⟨b, _, rfl | rfl⟩ := hc
  · exact hexDigit_mem _ (Nat.mod_lt _ (by decide))
  · exact hexDigit_mem _ (Nat.mod_lt _ (by decide))

/-- Claim C21. For every (well-formed) name-to-content map, the table returned
by `getSha1OfMap` has exactly the names of the map, each with the fingerprint
of its content: the 40 lower-case hexadecimal digits of the SHA-1 digest of the
content. The fingerprint is a function of the content alone, so two names with
equal content have equal fingerprints. -/
theorem getSha1OfMap_fingerprints (content : GoMap String) (h : WellFormed content) :
    (∀ k, mapGet (getSha1OfMap sha1Hex content) k = (mapGet content k).map sha1Hex) ∧
    (∀ k, mapHas (getSha1OfMap sha1Hex content) k = mapHas content k) ∧
    (∀ v, (sha1Hex v).length = 40 ∧
      (∀ c ∈ (sha1Hex v).data, c ∈ "0123456789abcdef".data) ∧
      sha1Hex v = sprintfHex (sha1Sum (stringBytes v))) ∧
    (∀ k k' v, mapGet content k = some v → mapGet content k' = some v →
      mapGet (getSha1OfMap sha1Hex content) k = mapGet (getSha1OfMap sha1Hex content) k') := by
  have hg := mapGet_getSha1OfMap sha1Hex content h
  refine ⟨hg, ?_, ?_, ?_⟩
  · intro k
    simp only [mapHas, hg]
    cases mapGet content k <;> rfl
  · intro v
    refine ⟨?_, sprintfHex_digits _, rfl⟩
    rw [sha1Hex, length_sprintfHex, length_sha1Sum]
  · intro k k' v hk hk'
    rw [hg, hg, hk, hk']

/-- Witness for claim C21: two names with the content `abc`. -/
theorem getSha1OfMap_fingerprints_witness :
    WellFormed [("a.service", "abc"), ("b.service", "abc")] ∧
    mapGet (getSha1OfMap sha1Hex [("a.service", "abc"), ("b.service", "abc")]) "b.service"
      = some "a9993e364706816aba3e25717850c26c9cd0d89d" :=
  ⟨by decide,
    ((getSha1OfMap_fingerprints [("a.service", "abc"), ("b.service", "abc")]
      (by decide)).1 "b.service").trans
      ((congrArg (Option.map sha1Hex)
        (show mapGet [("a.service", "abc"), ("b.service", "abc")] "b.service" = some "abc"
          by decide)).trans (congrArg some sha1Hex_abc))⟩

/-! ## Text tables -/

theorem scanHeaderLoop_ok (text : List Nat → String) (s : List Nat) (rest : List Nat)
    (i : Nat) (isSpace : Bool) (start : Nat) (answer : List tableconv.Pos)
    (hlen : i + rest.length = s.length) (hstart : start ≤ i)
    (hsp : isSpace = true → 0 < i)
    (hcols : ∀ p ∈ answer, 0 ≤ p.Col ∧ p.Col + 2 ≤ i)
    (hpw : answer.Pairwise (fun p q => p.Col < q.Col)) :
    ∃ hdr, tableconv.scanHeaderLoop text s rest i isSpace start answer = some hdr ∧
      tableconv.HeaderOk hdr := by
  induction rest generalizing i isSpace start answer with
  | nil =>
    have hs : tableconv.sliceFrom s start = some (s.drop start) := by
      simp only [List.length_nil, Nat.add_zero] at hlen
      have : (start : Int) ≤ s.length := by omega
      simp [tableconv.sliceFrom, this]
    refine ⟨answer ++ [⟨text (s.drop start), -1⟩], by simp [tableconv.scanHeaderLoop, hs], ?_⟩
    exact ⟨answer, _, rfl, rfl, fun p hp => (hcols p hp).1, hpw⟩
  | cons b rest' ih =>
    simp only [List.length_cons] at hlen
    unfold tableconv.scanHeaderLoop
    by_cases hc : (isSpace && !tableconv.isWhitepace b) = true
    · have hi : 0 < i := hsp (by
        cases isSpace <;> simp_all)
      have hs : tableconv.sliceFromTo s start i =
          some ((s.drop start).take (i - start)) := by
        have h1 : (start : Int) ≤ i := by omega
        have h2 : (i : Int) ≤ s.length := by omega
        have h3 : ((i : Int) - start).toNat = i - start := by omega
        simp [tableconv.sliceFromTo, h1, h2, h3]
      simp only [hc, if_true, hs]
      apply ih (i + 1) (tableconv.isWhitepace b) i _ (by omega) (by omega) (fun _ => by omega)
      · intro p hp
        rcases List.mem_append.1 hp with hp | hp
        · have := hcols p hp
          omega
        · simp only [List.mem_singleton] at hp
          subst hp
          simp only
          omega
      · rw [List.pairwise_append]
        refine ⟨hpw, List.pairwise_singleton _ _, ?_⟩
        intro p hp q hq
        simp only [List.mem_singleton] at hq
        subst hq
        have := hcols p hp
        simp only
        omega
    · simp only [hc]
      apply ih (i + 1) (tableconv.isWhitepace b) start answer (by omega) (by omega)
        (fun _ => by omega)
      · intro p hp
        have := hcols p hp
        omega
      · exact hpw

theorem scanHeader_ok (text : List Nat → String) (s : List Nat) :
    ∃ hdr, tableconv.scanHeader text s = some hdr ∧ tableconv.HeaderOk hdr :=
  scanHeaderLoop_ok text s s 0 false 0 [] (by simp) (Nat.le_refl _) (by simp)
    (by simp) List.Pairwise.nil

theorem scanRow_ok (text : List Nat → String) (ln : List Nat) (hln : 0 < ln.length)
    (init : List tableconv.Pos) (last : tableconv.Pos) (hlast : last.Col = -1)
    (strt : Int) (row : List String)
    (h0 : 0 ≤ strt) (hle : strt ≤ ln.length)
    (hinit : ∀ p ∈ init, strt ≤ p.Col)
    (hpw : init.Pairwise (fun p q => p.Col < q.Col)) :
    ∃ row', tableconv.scanRow text ln (init ++ [last]) strt row = some row' ∧
      row.length ≤ row'.length ∧ row'.length ≤ row.length + (init ++ [last]).length := by
  induction init generalizing strt row with
  | nil =>
    have hs : tableconv.sliceFrom ln strt = some (ln.drop strt.toNat) := by
      simp [tableconv.sliceFrom, h0, hle]
    have hc : ¬ ((ln.length : Int) ≤ 0) := by omega
    refine ⟨row ++ [text (ln.drop strt.toNat)], ?_, by simp, by simp⟩
    simp [tableconv.scanRow, hlast, hc, hs]
  | cons p init' ih =>
    rw [List.pairwise_cons] at hpw
    have hp := hinit p (List.mem_cons_self _ _)
    simp only [List.cons_append]
    unfold tableconv.scanRow
    by_cases hc : p.Col + 1 ≥ ln.length
    · exact ⟨row, by simp [hc], Nat.le_refl _, by omega⟩
    · have hne : p.Col ≠ -1 := by omega
      have hs : tableconv.sliceFromTo ln strt p.Col =
          some ((ln.drop strt.toNat).take (p.Col - strt).toNat) := by
        have : p.Col ≤ ln.length := by omega
        simp [tableconv.sliceFromTo, h0, hp, this]
      simp only [hc, if_false, hne, hs]
      obtain ⟨row', h1, h2, h3⟩ := ih p.Col
        (row ++ [text ((ln.drop strt.toNat).take (p.Col - strt).toNat)])
        (by omega) (by omega)
        (fun q hq => Int.le_of_lt (hpw.1 q hq)) hpw.2
      refine ⟨row', h1, ?_, ?_⟩
      · simp only [List.length_append, List.length_singleton] at h2
        omega
      · simp only [List.length_append, List.length_singleton, List.length_cons,
          List.length_nil] at h3 ⊢
        omega

theorem scanRows_ok (text : List Nat → String) (hdr : List tableconv.Pos)
    (hh : tableconv.HeaderOk hdr) (minCols : Int) (lines : List (List Nat))
    (rows : List (List String))
    (hrows : ∀ row ∈ rows, minCols ≤ row.length ∧ row.length ≤ hdr.length) :
    ∃ rows', tableconv.scanRows text hdr minCols lines rows = some rows' ∧
      ∀ row ∈ rows', minCols ≤ row.length ∧ row.length ≤ hdr.length := by
  induction lines generalizing rows with
  | nil => exact ⟨rows, rfl, hrows⟩
  | cons ln rest ih =>
    unfold tableconv.scanRows
    by_cases hl : ln.length = 0
    · exact ⟨rows, by simp [hl], hrows⟩
    · obtain ⟨init, last, rfl, hlast, hinit, hpw⟩ := hh
      obtain ⟨row, hr, _, hr2⟩ := scanRow_ok text ln (Nat.pos_of_ne_zero hl) init last hlast
        0 [] (Int.le_refl _) (by omega) hinit hpw
      simp only [hl, if_false, hr]
      apply ih
      intro r hrmem
      by_cases hm : (row.length : Int) ≥ minCols
      · simp only [hm, if_true] at hrmem
        rcases List.mem_append.1 hrmem with h | h
        · exact hrows r h
        · simp only [List.mem_singleton] at h
          subst h
          exact ⟨hm, by simpa using hr2⟩
      · simp only [hm, if_false] at hrmem
        exact hrows r hrmem

theorem scanLinesOf_ok (text : List Nat → String) (lines : List (List Nat)) (minCols : Int) :
    ∃ t, tableconv.scanLinesOf text lines minCols = some t ∧
      (lines ≠ [] → tableconv.HeaderOk t.Header) ∧
      ∀ row ∈ t.Rows, minCols ≤ row.length ∧ row.length ≤ t.Header.length := by
  cases lines with
  | nil => exact ⟨⟨[], []⟩, rfl, fun h => (h rfl).elim, by simp⟩
  | cons first rest =>
    obtain ⟨hdr, h1, h2⟩ := scanHeader_ok text first
    obtain ⟨rows, h3, h4⟩ := scanRows_ok text hdr h2 minCols rest [] (by simp)
    exact ⟨⟨hdr, rows⟩, by simp [tableconv.scanLinesOf, h1, h3], fun _ => h2, h4⟩

/-- Claim C27. For every input text and every `minCols`, `Scan` completes
without a slice or index out of range. `scanHeader` returns, for every header
line, a header that is not empty: columns with offsets that are not negative
and strictly increasing, then one last column with the offset `-1`; with such a
header every slice taken from a row line that is not empty is within the line.
Every row of the result has at least `minCols` cells and at most as many cells
as the header has columns. -/
theorem Scan_completes (text : List Nat → String) (r : String) (minCols : Int) :
    (∀ s, ∃ hdr, tableconv.scanHeader text s = some hdr ∧ hdr ≠ [] ∧
      ∃ init last, hdr = init ++ [last] ∧ last.Col = -1 ∧
        (∀ p ∈ init, 0 ≤ p.Col) ∧ init.Pairwise (fun p q => p.Col < q.Col)) ∧
    (∀ hdr, tableconv.HeaderOk hdr → ∀ ln : List Nat, 0 < ln.length →
      ∃ row, tableconv.scanRow text ln hdr 0 [] = some row ∧ row.length ≤ hdr.length) ∧
    (∃ t, tableconv.Scan text r minCols = some t ∧
      ∀ row ∈ t.Rows, minCols ≤ row.length ∧ row.length ≤ t.Header.length) := by
  refine ⟨?_, ?_, ?_⟩
  · intro s
    obtain ⟨hdr, h1, init, last, h2, h3⟩ := scanHeader_ok text s
    exact ⟨hdr, h1, by rw [h2]; simp, init, last, h2, h3⟩
  · rintro hdr ⟨init, last, rfl, hlast, hinit, hpw⟩ ln hln
    obtain ⟨row, h1, _, h2⟩ := scanRow_ok text ln hln init last hlast 0 []
      (Int.le_refl _) (by omega) hinit hpw
    exact ⟨row, h1, by simpa using h2⟩
  · obtain ⟨t, h1, _, h2⟩ := scanLinesOf_ok text ((scanLines r).map stringBytes) minCols
    exact ⟨t, h1, h2⟩

end Operator
